import Mathlib

/-!
Verification of the Singine shortest-path engine and inode-style ID generator
(`shortest_path.rs`, `id_gen.rs`).

Modelling conventions:
* `f64` edge weights are modelled as `ℚ` (the spec restricts weights to
  non-negative finite floats, and every weight appearing in the claims is a
  small decimal).  The staleness tolerance `1e-9` becomes `1/1000000000`.
* `HashMap<String, Vec<(String, f64)>>` is modelled as an association list;
  only `get`-style access is observable in the source.
* `BinaryHeap` pop is modelled as removal of a minimum-cost element (leftmost
  among minima).  Rust's tie order among equal costs is unspecified; no claim
  depends on it.
* The Dijkstra `while` loop is modelled with explicit fuel.  The outer
  `Option` of `dijkstra`'s result distinguishes fuel exhaustion (`none`, a
  model artifact proved unreachable for in-contract inputs) from the source's
  return value (`some none` = Rust `None`, `some (some r)` = Rust `Some(r)`).
* SQLite statements are modelled as atomic transitions on a store state; the
  interleaving of statements from two concurrent callers is explicit.
-/

-- ── Data types (shortest_path.rs) ──────────────────────────────────────────

/-- Edge record of the `similarity_edges` table (`Edge` in shortest_path.rs). -/
structure Edge where
  gen_id : String
  src_id : String
  dst_id : String
  weight : ℚ
  edge_type : String
deriving DecidableEq

/-- Result record (`PathResult` in shortest_path.rs). -/
structure PathResult where
  src_id : String
  dst_id : String
  path : List String
  total_weight : ℚ
  algorithm : String
deriving DecidableEq

/-- Dijkstra frontier entry (`State` in shortest_path.rs). -/
structure DState where
  cost : ℚ
  node : String
  history : List String
deriving DecidableEq

-- ── Quicksort (shortest_path.rs, quicksort_edges / qs_partition) ───────────

/-- Rust `Vec::swap`: exchanges positions `i` and `j`; `none` models the
out-of-bounds panic. -/
def swapL (es : List Edge) (i j : ℕ) : Option (List Edge) :=
  match es[i]?, es[j]? with
  | some a, some b => some ((es.set i b).set j a)
  | _, _ => none

/-- The `for j in lo..hi` partition loop of `qs_partition`; `c` counts the
remaining iterations (`hi - j`), `i` is the partition index.  Returns the
updated vector and the final `i`; `none` models an out-of-bounds access. -/
def qsLoop (pivotW : ℚ) : ℕ → List Edge → ℕ → ℕ → Option (List Edge × ℕ)
  | 0, es, i, _ => some (es, i)
  | c + 1, es, i, j =>
    match es[j]? with
    | none => none
    | some e =>
      if e.weight ≤ pivotW then
        match swapL es i j with
        | none => none
        | some es' => qsLoop pivotW c es' (i + 1) (j + 1)
      else qsLoop pivotW c es i (j + 1)

/-- `qs_partition` from shortest_path.rs, with explicit recursion fuel;
`none` models fuel exhaustion or an out-of-bounds access (both proved
impossible for the fuel used by `quicksort_edges`). -/
def qs_partition : ℕ → List Edge → ℕ → ℕ → Option (List Edge)
  | 0, _, _, _ => none
  | fuel + 1, es, lo, hi =>
    if lo ≥ hi then some es
    else
      match es[hi]? with
      | none => none
      | some pivot =>
        match qsLoop pivot.weight (hi - lo) es lo lo with
        | none => none
        | some (es₁, i) =>
          match swapL es₁ i hi with
          | none => none
          | some es₂ =>
            match (if 0 < i then qs_partition fuel es₂ lo (i - 1) else some es₂) with
            | none => none
            | some es₃ => qs_partition fuel es₃ (i + 1) hi

/-- `quicksort_edges` from shortest_path.rs: in-place quicksort by weight. -/
def quicksort_edges (es : List Edge) : List Edge :=
  if es.length < 2 then es
  else (qs_partition (es.length + 1) es 0 (es.length - 1)).getD es

-- ── Adjacency builder (shortest_path.rs, build_adjacency) ──────────────────

/-- Association-list lookup (models `HashMap::get`). -/
def alookup {β : Type} (k : String) : List (String × β) → Option β
  | [] => none
  | (k', v) :: rest => if k' = k then some v else alookup k rest

/-- `adj.entry(k).or_default().push(v)` on the association-list model. -/
def adjPush (k : String) (v : String × ℚ) :
    List (String × List (String × ℚ)) → List (String × List (String × ℚ))
  | [] => [(k, [v])]
  | (k', l) :: rest =>
    if k' = k then (k', l ++ [v]) :: rest else (k', l) :: adjPush k v rest

/-- Adjacency index: node ↦ ordered neighbour entries. -/
abbrev AdjMap : Type := List (String × List (String × ℚ))

/-- `build_adjacency` from shortest_path.rs: undirected, adds both directions. -/
def build_adjacency (edges : List Edge) : AdjMap :=
  edges.foldl
    (fun adj e => adjPush e.dst_id (e.src_id, e.weight)
      (adjPush e.src_id (e.dst_id, e.weight) adj)) []

/-- Neighbour list of a node; `[]` when absent (the source skips the loop when
`adj.get(&node)` is `None`). -/
def adjGetD (adj : AdjMap) (v : String) : List (String × ℚ) :=
  (alookup v adj).getD []

-- ── Dijkstra (shortest_path.rs, dijkstra) ──────────────────────────────────

/-- Staleness tolerance `1e-9` from the source. -/
def dEps : ℚ := 1 / 1000000000

/-- `BinaryHeap::pop` on the list model: removes a minimum-cost entry
(leftmost among minima). -/
def popMin : List DState → Option (DState × List DState)
  | [] => none
  | e :: rest =>
    match popMin rest with
    | none => some (e, [])
    | some (m, rest') =>
      if e.cost ≤ m.cost then some (e, rest) else some (m, e :: rest')

/-- Update (or insert) the tentative-distance entry of a node. -/
def distUpdate (k : String) (v : ℚ) : List (String × ℚ) → List (String × ℚ)
  | [] => [(k, v)]
  | (k', v') :: rest =>
    if k' = k then (k, v) :: rest else (k', v') :: distUpdate k v rest

/-- The relaxation loop of `dijkstra`: for each neighbour `(next, w)` compute
`next_cost = cost + w`; on strict improvement over the recorded distance
(absent = `f64::INFINITY`) update the table and push a new frontier entry. -/
def relax (cost : ℚ) (hist : List String) :
    List (String × ℚ) → List (String × ℚ) → List DState →
    List (String × ℚ) × List DState
  | [], dist, acc => (dist, acc)
  | (next, w) :: rest, dist, acc =>
    let cand := cost + w
    let improves : Bool :=
      match alookup next dist with
      | some d => decide (cand < d)
      | none => true
    if improves then
      relax cost hist rest (distUpdate next cand dist)
        (acc ++ [⟨cand, next, hist ++ [next]⟩])
    else relax cost hist rest dist acc

/-- The `while let Some(State ...) = heap.pop()` loop of `dijkstra`.
`none` = fuel exhausted (model artifact), `some none` = heap exhausted
(Rust returns `None`), `some (some r)` = destination popped (Rust `Some`). -/
def dijkstraLoop (adj : AdjMap) (src dst : String) :
    ℕ → List (String × ℚ) → List DState → Option (Option PathResult)
  | 0, _, _ => none
  | fuel + 1, dist, heap =>
    match popMin heap with
    | none => some none
    | some (e, heap') =>
      if e.node = dst then
        some (some ⟨src, dst, e.history, e.cost, "dijkstra+quicksort"⟩)
      else
        let stale : Bool :=
          match alookup e.node dist with
          | some best => decide (best + dEps < e.cost)
          | none => false
        if stale then dijkstraLoop adj src dst fuel dist heap'
        else
          let rn := relax e.cost e.history (adjGetD adj e.node) dist []
          dijkstraLoop adj src dst fuel rn.1 (heap' ++ rn.2)

-- Fuel bound: enumeration of duplicate-free node sequences and their costs.

/-- Every node name mentioned in the adjacency index. -/
def adjNodes (adj : AdjMap) : List String :=
  adj.flatMap (fun p => p.1 :: p.2.map Prod.fst)

/-- Node universe of a search: the source node and all mentioned nodes. -/
def dijkstraNodes (adj : AdjMap) (src : String) : List String :=
  (src :: adjNodes adj).dedup

/-- All duplicate-free sequences over a (deduplicated) node list. -/
def nodupLists (ns : List String) : List (List String) :=
  ns.sublists.flatMap List.permutations

/-- All costs realizable by walking a given node sequence from `a` through the
adjacency index (one summand per choice of parallel edge at each step). -/
def seqCosts (adj : AdjMap) : String → List String → List ℚ
  | _, [] => [0]
  | a, b :: rest =>
    ((adjGetD adj a).filter (fun p => decide (p.1 = b))).flatMap
      (fun p => (seqCosts adj b rest).map (fun c => p.2 + c))

/-- All costs of duplicate-free walks from `src` to `v`. -/
def pathCostsTo (adj : AdjMap) (src v : String) : Finset ℚ :=
  (((nodupLists (dijkstraNodes adj src)).filter
      (fun l => decide (l.head? = some src ∧ l.getLast? = some v))).flatMap
    (fun l => seqCosts adj src l.tail)).toFinset

/-- Number of duplicate-free walk costs to `v` strictly below the recorded
tentative distance (all of them when the node has no entry yet). -/
def countBelow (adj : AdjMap) (src v : String) : Option ℚ → ℕ
  | some d => ((pathCostsTo adj src v).filter (fun c => c < d)).card
  | none => (pathCostsTo adj src v).card

/-- Potential of a distance table. -/
def distWeight (adj : AdjMap) (src : String) (dist : List (String × ℚ)) : ℕ :=
  ((dijkstraNodes adj src).map (fun v => countBelow adj src v (alookup v dist))).sum

/-- Loop variant: strictly decreases at every iteration of `dijkstraLoop`. -/
def dMeasure (adj : AdjMap) (src : String) (dist : List (String × ℚ))
    (heap : List DState) : ℕ :=
  distWeight adj src dist + heap.length

/-- Fuel sufficient for the whole search (proved adequate below). -/
def dijkstraFuel (adj : AdjMap) (src : String) : ℕ :=
  dMeasure adj src [(src, 0)] [⟨0, src, [src]⟩] + 1

/-- `dijkstra` from shortest_path.rs.  The outer `Option` is the fuel marker
(see module docstring); the inner `Option` is the source's return value. -/
def dijkstra (adj : AdjMap) (src dst : String) : Option (Option PathResult) :=
  dijkstraLoop adj src dst (dijkstraFuel adj src) [(src, 0)] [⟨0, src, [src]⟩]

-- ── ID generator (id_gen.rs) ───────────────────────────────────────────────

/-- Rust `char::is_alphanumeric` (Unicode `Alphabetic ∪ Nd ∪ Nl ∪ No`)
restricted to the ASCII/Latin-1 plane: character-exact for code points up to
U+00FF and `false` above it.  Every theorem below about individual sanitized
characters therefore carries the explicit hypothesis that the hint lies in
that range; statements that are insensitive to which characters are kept
(id shape, truncation length, URN shape) are unrestricted. -/
def rustIsAlphanumeric (c : Char) : Bool :=
  c.isAlphanum ||
    (c.toNat = 0xAA || c.toNat = 0xB2 || c.toNat = 0xB3 || c.toNat = 0xB5 ||
     c.toNat = 0xB9 || c.toNat = 0xBA || c.toNat = 0xBC || c.toNat = 0xBD ||
     c.toNat = 0xBE ||
     (0xC0 ≤ c.toNat && c.toNat ≤ 0xFF && c.toNat ≠ 0xD7 && c.toNat ≠ 0xF7))

/-- Hint sanitization from `generate`: keep alphanumerics and `-`, replace
every other character with `_`, take the first 16 characters
(character-exact for ASCII/Latin-1 hints; see `rustIsAlphanumeric`). -/
def sanitizeHint (h : String) : String :=
  ⟨(h.data.map (fun c => if rustIsAlphanumeric c || c = '-' then c else '_')).take 16⟩

/-- The `gen_id` string built by `generate`; the 8-character token drawn from
`Uuid::new_v4` is the only non-deterministic input and is a parameter. -/
def mkGenId (ns : String) (shortUuid : String) (hint : Option String) : String :=
  match hint with
  | some h =>
    if h ≠ "" then ns ++ "-" ++ shortUuid ++ "-" ++ sanitizeHint h
    else ns ++ "-" ++ shortUuid
  | none => ns ++ "-" ++ shortUuid

/-- The URN built by `generate`. -/
def mkUrn (ns gid : String) : String :=
  "urn" ++ ":" ++ "singine" ++ ":" ++ ns ++ ":" ++ gid

/-- Split at the first occurrence of `sep`; `none` when `sep` is absent. -/
def splitOnce (sep : Char) : List Char → Option (List Char × List Char)
  | [] => none
  | c :: rest =>
    if c = sep then some ([], rest)
    else
      match splitOnce sep rest with
      | none => none
      | some (a, b) => some (c :: a, b)

/-- Rust `str::splitn(n, sep)`: at most `n` pieces, the last piece keeping any
further separators. -/
def splitnChars (sep : Char) : ℕ → List Char → List (List Char)
  | 0, _ => []
  | 1, s => [s]
  | n + 2, s =>
    match splitOnce sep s with
    | none => [s]
    | some (a, b) => a :: splitnChars sep (n + 1) b

/-- `resolve_urn` from id_gen.rs. -/
def resolve_urn (urn : String) : Option String :=
  match splitnChars ':' 4 urn.data with
  | [p₀, p₁, _, p₃] =>
    if p₀ = "urn".data ∧ p₁ = "singine".data then some (String.mk p₃) else none
  | _ => none

/-- A string matches the 4-segment `urn:singine:*:*` shape, under the
`splitn(4, ':')` segmentation used by the source (the fourth segment keeps any
further colons). -/
def UrnShape (s : String) : Prop :=
  ∃ p₂ p₃, splitnChars ':' 4 s.data = ["urn".data, "singine".data, p₂, p₃]

-- Durable counter model (the inode_counter table).

/-- The atomic upsert statement of `generate`:
`INSERT ... VALUES (ns, 2) ON CONFLICT DO UPDATE SET next_inode = next_inode + 1`. -/
def counterUpsert (ns : String) : List (String × ℕ) → List (String × ℕ)
  | [] => [(ns, 2)]
  | (k, v) :: rest =>
    if k = ns then (k, v + 1) :: rest else (k, v) :: counterUpsert ns rest

/-- The separate read-back statement of `generate`:
`SELECT next_inode - 1 FROM inode_counter WHERE namespace = ?1`. -/
def counterSelect (ns : String) (t : List (String × ℕ)) : Option ℕ :=
  (alookup ns t).map (fun v => v - 1)

/-- The storage effect of one sequential `generate` call: upsert, then read
back the issued inode. -/
def generateCounter (ns : String) (t : List (String × ℕ)) :
    List (String × ℕ) × Option ℕ :=
  let t' := counterUpsert ns t
  (t', counterSelect ns t')

/-- `n` sequential `generate` calls against the same store; returns the final
table and the issued inodes in order. -/
def runGenerates (ns : String) (t : List (String × ℕ)) :
    ℕ → List (String × ℕ) × List (Option ℕ)
  | 0 => (t, [])
  | n + 1 =>
    let r := runGenerates ns t n
    let g := generateCounter ns r.1
    (g.1, r.2 ++ [g.2])

-- Interleaving model for two concurrent generate calls.

/-- The storage statements issued by one `generate` call, in program order. -/
inductive MintStep where
  | upsert
  | select
deriving DecidableEq

/-- Shared store plus the program counters and results of two callers. -/
structure TwoCallers where
  table : List (String × ℕ)
  rem₁ : List MintStep
  rem₂ : List MintStep
  out₁ : Option ℕ
  out₂ : Option ℕ
deriving DecidableEq

/-- Execute one statement of a caller against the shared store; each SQLite
statement is atomic, but distinct statements of the two callers interleave. -/
def stepCaller (ns : String) (t : List (String × ℕ)) :
    List MintStep → Option ℕ → List (String × ℕ) × List MintStep × Option ℕ
  | [], r => (t, [], r)
  | MintStep.upsert :: rest, r => (counterUpsert ns t, rest, r)
  | MintStep.select :: rest, _ => (t, rest, counterSelect ns t)

/-- Run a schedule (`true` = caller 1 steps, `false` = caller 2 steps). -/
def runSchedule (ns : String) : List Bool → TwoCallers → TwoCallers
  | [], s => s
  | b :: sched, s =>
    if b then
      let r := stepCaller ns s.table s.rem₁ s.out₁
      runSchedule ns sched { s with table := r.1, rem₁ := r.2.1, out₁ := r.2.2 }
    else
      let r := stepCaller ns s.table s.rem₂ s.out₂
      runSchedule ns sched { s with table := r.1, rem₂ := r.2.1, out₂ := r.2.2 }

/-- Initial state of two concurrent `generate` calls on the namespace. -/
def twoFresh (t : List (String × ℕ)) : TwoCallers :=
  ⟨t, [MintStep.upsert, MintStep.select], [MintStep.upsert, MintStep.select],
    none, none⟩

-- ── Store model and entry point (shortest_path.rs DB interface) ────────────

/-- Row of the `path_results` table. -/
structure PathRow where
  gen_id : String
  src_id : String
  dst_id : String
  path_json : String
  total_weight : ℚ
  algorithm : String
  run_id : Option String
deriving DecidableEq

/-- The durable store visible to this core. -/
structure Db where
  similarity_edges : List Edge
  inode_counter : List (String × ℕ)
  path_results : List PathRow
deriving DecidableEq

/-- `load_edges`: read the edge set, optionally filtered by type, ordered by
weight at the storage layer (modelled as a stable sort; SQL tie order is
unspecified and, per the spec, must not be relied upon). -/
def load_edges (db : Db) (edge_type : Option String) : List Edge :=
  let base : List Edge :=
    match edge_type with
    | some t => db.similarity_edges.filter (fun e => decide (e.edge_type = t))
    | none => db.similarity_edges
  base.insertionSort (fun a b => a.weight ≤ b.weight)

/-- Serialization of the path list (serde_json of a `Vec<String>`), faithful
for strings without JSON escapes. -/
def pathJson (p : List String) : String :=
  "[" ++ String.intercalate "," (p.map (fun s => "\"" ++ s ++ "\"")) ++ "]"

/-- `persist_path`: mint an id in the `"path"` namespace and append one row. -/
def persist_path (db : Db) (result : PathResult) (run_id : Option String)
    (shortUuid : String) : Db × String :=
  let counter' := counterUpsert "path" db.inode_counter
  let gid := mkGenId "path" shortUuid none
  let row : PathRow :=
    ⟨gid, result.src_id, result.dst_id, pathJson result.path,
      result.total_weight, result.algorithm, run_id⟩
  ({ db with inode_counter := counter',
             path_results := db.path_results ++ [row] }, gid)

/-- `compute_and_persist`: load, sort, build adjacency, search, persist on
success.  The outer `Option` of the result is the fuel marker inherited from
`dijkstra`. -/
def compute_and_persist (db : Db) (src_id dst_id : String)
    (edge_type : Option String) (run_id : Option String) (shortUuid : String) :
    Db × Option (Option PathResult) :=
  let edges := quicksort_edges (load_edges db edge_type)
  let adj := build_adjacency edges
  match dijkstra adj src_id dst_id with
  | none => (db, none)
  | some (some result) =>
    ((persist_path db result run_id shortUuid).1, some (some result))
  | some none => (db, some none)

-- ── Walks and reachability over the adjacency index ────────────────────────

/-- A walk through the adjacency index from a node to a node, together with
its node sequence and total cost (one constructor application per traversed
adjacency entry, so parallel edges yield distinct costs). -/
inductive Walk (adj : AdjMap) : String → String → List String → ℚ → Prop
  | nil (v : String) : Walk adj v v [v] 0
  | cons (a b t : String) (w : ℚ) (p : List String) (c : ℚ) :
      (b, w) ∈ adjGetD adj a → Walk adj b t p c → Walk adj a t (a :: p) (w + c)

/-- Destination reachable from source in the adjacency index. -/
def Reachable (adj : AdjMap) (src dst : String) : Prop :=
  ∃ p c, Walk adj src dst p c

/-- All adjacency entries carry non-negative weights (the spec's precondition
on edge weights, inherited by the index). -/
abbrev AdjNonneg (adj : AdjMap) : Prop :=
  ∀ p ∈ adj, ∀ bw ∈ p.2, 0 ≤ bw.2

/-- Invariant of the `dijkstra` loop state, each field established at
initialization and preserved by every iteration:
* `entries`: every frontier entry carries a duplicate-free walk from the
  source ending at its node, whose total weight is the entry's cost;
* `entryDist`: every node on an entry's walk has a recorded distance at most
  the entry's cost;
* `distWalk`: every recorded distance is the weight of some duplicate-free
  walk from the source to its node;
* `distKeys`: the distance table only mentions the search's node universe;
* `distEntryOrExpanded`: a node with recorded distance `d` either still has a
  frontier entry of cost exactly `d`, or has already been expanded at `d`
  (each neighbour's recorded distance is at most `d` plus the edge weight);
* `dstEntry`: the destination, while never expanded (popping it returns), has
  a frontier entry of cost exactly its recorded distance whenever recorded;
* `srcZero`: the source's recorded distance stays `0`. -/
structure DInv (adj : AdjMap) (src dst : String)
    (dist : List (String × ℚ)) (heap : List DState) : Prop where
  entries : ∀ e ∈ heap, Walk adj src e.node e.history e.cost ∧ e.history.Nodup
  entryDist : ∀ e ∈ heap, ∀ v ∈ e.history, ∃ d, alookup v dist = some d ∧ d ≤ e.cost
  distWalk : ∀ v d, alookup v dist = some d → ∃ p, Walk adj src v p d ∧ p.Nodup
  distKeys : ∀ v d, alookup v dist = some d → v ∈ dijkstraNodes adj src
  distEntryOrExpanded : ∀ v d, alookup v dist = some d →
    (∃ e ∈ heap, e.node = v ∧ e.cost = d) ∨
    (∀ bw ∈ adjGetD adj v, ∃ d', alookup bw.1 dist = some d' ∧ d' ≤ d + bw.2)
  dstEntry : ∀ d, alookup dst dist = some d → ∃ e ∈ heap, e.node = dst ∧ e.cost = d
  srcZero : alookup src dist = some 0

/-- Specification-level adjacency contents: for each node, the neighbour
entries contributed by the edge list in supply order (used to state the C7
ordering property; `build_adjacency` is proved to coincide with it). -/
def adjacencySpec (edges : List Edge) (x : String) : List (String × ℚ) :=
  edges.flatMap (fun e =>
    (if e.src_id = x then [(e.dst_id, e.weight)] else []) ++
    (if e.dst_id = x then [(e.src_id, e.weight)] else []))

/-- Adjacent pairs inside the inclusive index range `[lo, hi]` are ordered by
weight. -/
def sortedWithin (es : List Edge) (lo hi : ℕ) : Prop :=
  ∀ k (_ : lo ≤ k) (_ : k + 1 ≤ hi) (hk : k + 1 < es.length),
    (es.get ⟨k, Nat.lt_of_succ_lt hk⟩).weight ≤ (es.get ⟨k + 1, hk⟩).weight

/-- The inclusive slice `[lo, hi]` of a list. -/
def sliceIncl {α : Type} (l : List α) (lo hi : ℕ) : List α :=
  (l.drop lo).take (hi + 1 - lo)

-- ═══════════════════════════════════════════════════════════════════════════
-- Theorems
-- ═══════════════════════════════════════════════════════════════════════════

-- ── Association-list helper lemmas ─────────────────────────────────────────

theorem adjGetD_cons (k' : String) (l : List (String × ℚ))
    (rest : List (String × List (String × ℚ))) (x : String) :
    adjGetD ((k', l) :: rest) x = if k' = x then l else adjGetD rest x := by
  by_cases h : k' = x <;> simp [adjGetD, alookup, h]

theorem adjGetD_adjPush (k : String) (v : String × ℚ) (adj : List (String × List (String × ℚ))) (x : String) :
    adjGetD (adjPush k v adj) x =
      if k = x then adjGetD adj x ++ [v] else adjGetD adj x := by
  induction adj with
  | nil =>
    by_cases hkx : k = x <;>
      simp [adjPush, adjGetD, alookup, hkx]
  | cons p rest ih =>
    obtain ⟨k', l⟩ := p
    simp only [adjPush]
    by_cases hk : k' = k
    · subst hk
      simp only [if_pos rfl, adjGetD_cons]
      by_cases hkx : k' = x <;> simp [adjGetD_cons, hkx]
    · rw [if_neg hk, adjGetD_cons, adjGetD_cons, ih]
      by_cases hx : k' = x
      · subst hx
        have hkx : ¬ k = k' := fun h => hk h.symm
        simp [hkx]
      · simp [hx]

theorem build_adjacency_foldl (es : List Edge)
    (adj : List (String × List (String × ℚ))) (x : String) :
    adjGetD (es.foldl
      (fun adj e => adjPush e.dst_id (e.src_id, e.weight)
        (adjPush e.src_id (e.dst_id, e.weight) adj)) adj) x =
      adjGetD adj x ++ adjacencySpec es x := by
  induction es generalizing adj with
  | nil => simp [adjacencySpec]
  | cons e es ih =>
    rw [List.foldl_cons, ih]
    simp only [adjacencySpec, List.flatMap_cons]
    rw [adjGetD_adjPush, adjGetD_adjPush]
    by_cases h₁ : e.src_id = x <;> by_cases h₂ : e.dst_id = x <;>
      simp [h₁, h₂, List.append_assoc, adjacencySpec]

/-- C7: `build_adjacency` puts every edge into both endpoints' neighbour
lists (undirected regardless of `edge_type`), and each node's neighbour list
is exactly the entries contributed by the edges in supply order. -/
theorem build_adjacency_bidirectional_ordered :
    ∀ (edges : List Edge) (x : String),
      adjGetD (build_adjacency edges) x = adjacencySpec edges x ∧
      ∀ e ∈ edges,
        (e.dst_id, e.weight) ∈ adjGetD (build_adjacency edges) e.src_id ∧
        (e.src_id, e.weight) ∈ adjGetD (build_adjacency edges) e.dst_id := by
  intro edges x
  have key : ∀ y, adjGetD (build_adjacency edges) y = adjacencySpec edges y := by
    intro y
    have := build_adjacency_foldl edges [] y
    simpa [build_adjacency, adjGetD, alookup] using this
  refine ⟨key x, fun e he => ?_⟩
  rw [key, key]
  constructor
  · refine List.mem_flatMap.mpr ⟨e, he, ?_⟩
    simp
  · refine List.mem_flatMap.mpr ⟨e, he, ?_⟩
    by_cases h : e.src_id = e.dst_id <;> simp [h]

/-- Witness for C7 on a concrete edge list. -/
theorem build_adjacency_bidirectional_ordered_witness :
    (⟨"e1", "A", "B", 1, "sim"⟩ : Edge) ∈ [(⟨"e1", "A", "B", 1, "sim"⟩ : Edge)] ∧
    ("B", (1 : ℚ)) ∈ adjGetD (build_adjacency [⟨"e1", "A", "B", 1, "sim"⟩]) "A" ∧
    ("A", (1 : ℚ)) ∈ adjGetD (build_adjacency [⟨"e1", "A", "B", 1, "sim"⟩]) "B" :=
  ⟨by decide,
    ((build_adjacency_bidirectional_ordered [⟨"e1", "A", "B", 1, "sim"⟩] "A").2
      ⟨"e1", "A", "B", 1, "sim"⟩ (by decide)).1,
    ((build_adjacency_bidirectional_ordered [⟨"e1", "A", "B", 1, "sim"⟩] "A").2
      ⟨"e1", "A", "B", 1, "sim"⟩ (by decide)).2⟩

-- ── Counter lemmas and C4 ──────────────────────────────────────────────────

theorem alookup_counterUpsert_fresh (ns : String) (t : List (String × ℕ))
    (h : alookup ns t = none) : alookup ns (counterUpsert ns t) = some 2 := by
  induction t with
  | nil => simp [counterUpsert, alookup]
  | cons p rest ih =>
    obtain ⟨k, v⟩ := p
    by_cases hk : k = ns
    · subst hk
      simp [alookup] at h
    · simp only [alookup, hk, if_false, ite_false] at h
      simp [counterUpsert, alookup, hk, ih h]

theorem alookup_counterUpsert_hit (ns : String) (t : List (String × ℕ)) (v : ℕ)
    (h : alookup ns t = some v) : alookup ns (counterUpsert ns t) = some (v + 1) := by
  induction t with
  | nil => simp [alookup] at h
  | cons p rest ih =>
    obtain ⟨k, w⟩ := p
    by_cases hk : k = ns
    · subst hk
      rw [alookup, if_pos rfl] at h
      injection h with h
      subst h
      simp [counterUpsert, alookup]
    · simp only [alookup, hk, if_false, ite_false] at h
      simp [counterUpsert, alookup, hk, ih h]

theorem runGenerates_spec (ns : String) (t : List (String × ℕ))
    (hfresh : alookup ns t = none) (n : ℕ) :
    alookup ns (runGenerates ns t n).1 = (if n = 0 then none else some (n + 1)) ∧
    (runGenerates ns t n).2 = (List.range n).map (fun i => some (i + 1)) := by
  induction n with
  | zero => simpa [runGenerates] using hfresh
  | succ n ih =>
    obtain ⟨iht, iho⟩ := ih
    have hstep : alookup ns (counterUpsert ns (runGenerates ns t n).1) = some (n + 2) := by
      by_cases hn : n = 0
      · subst hn
        simp only [if_pos rfl] at iht
        exact alookup_counterUpsert_fresh ns _ iht
      · rw [if_neg hn] at iht
        simpa using alookup_counterUpsert_hit ns _ (n + 1) iht
    constructor
    · simp only [runGenerates, generateCounter]
      simpa using hstep
    · simp only [runGenerates, generateCounter, counterSelect, hstep, iho,
        Option.map_some, List.range_succ, List.map_append, List.map_cons, List.map_nil]
      simp

/-- C4: starting from a store with no counter row for the namespace,
sequential mints issue the inodes 1, 2, …, n in order: the first mint issues
inode 1 (the row is created with the upsert and the issued inode is the
pre-increment value) and the n-th mint issues inode n; issuance is strictly
increasing. -/
theorem mint_sequential_inodes (ns : String) (t : List (String × ℕ)) (n : ℕ)
    (hfresh : alookup ns t = none) :
    (runGenerates ns t n).2 = (List.range n).map (fun i => some (i + 1)) :=
  (runGenerates_spec ns t hfresh n).2

/-- Witness for C4: three sequential mints on a fresh namespace issue 1, 2, 3. -/
theorem mint_sequential_inodes_witness :
    alookup "lineage" ([] : List (String × ℕ)) = none ∧
    (runGenerates "lineage" [] 3).2 = [some 1, some 2, some 3] := by
  refine ⟨by decide, ?_⟩
  rw [mint_sequential_inodes "lineage" [] 3 (by decide)]
  decide

-- ── C2: the read-back is a separate statement from the upsert ──────────────

/-- C2 (failing execution): two concurrent `generate` calls on a fresh
namespace, interleaved as upsert₁, upsert₂, select₁, select₂ (each SQL
statement is atomic, but the issued inode is read back by a separate
statement), both observe and consume inode 2. -/
theorem generate_concurrent_duplicate_inode :
    (runSchedule "lineage" [true, false, true, false] (twoFresh [])).out₁ = some 2 ∧
    (runSchedule "lineage" [true, false, true, false] (twoFresh [])).out₂ = some 2 ∧
    (runSchedule "lineage" [true, false, true, false] (twoFresh [])).out₁ =
      (runSchedule "lineage" [true, false, true, false] (twoFresh [])).out₂ := by
  decide

-- ── C9: searching from a node to itself ────────────────────────────────────

/-- C9: for every adjacency index and node `s` — present in the index or not —
`dijkstra adj s s` immediately pops the initial frontier entry, sees the
destination, and returns the one-node path `[s]` with total weight 0. -/
theorem dijkstra_self_trivial (adj : AdjMap) (s : String) :
    dijkstra adj s s = some (some ⟨s, s, [s], 0, "dijkstra+quicksort"⟩) := by
  unfold dijkstra dijkstraFuel
  rw [dijkstraLoop]
  simp [popMin]

-- ── C5: URN round-trip and totality of resolution ──────────────────────────

theorem splitOnce_append_sep (sep : Char) (a b : List Char) (h : sep ∉ a) :
    splitOnce sep (a ++ sep :: b) = some (a, b) := by
  induction a with
  | nil => simp [splitOnce]
  | cons c a ih =>
    have hc : ¬ c = sep := fun hcs => h (by simp [hcs])
    have ha : sep ∉ a := fun hm => h (List.mem_cons_of_mem _ hm)
    simp [splitOnce, hc, ih ha]

theorem splitnChars_step (sep : Char) (n : ℕ) (a b : List Char) (h : sep ∉ a) :
    splitnChars sep (n + 2) (a ++ sep :: b) = a :: splitnChars sep (n + 1) b := by
  rw [splitnChars, splitOnce_append_sep sep a b h]

theorem splitn_mkUrn (ns gid : String) (h : ':' ∉ ns.data) :
    splitnChars ':' 4 (mkUrn ns gid).data =
      ["urn".data, "singine".data, ns.data, gid.data] := by
  have hdata : (mkUrn ns gid).data =
      "urn".data ++ ':' :: ("singine".data ++ ':' :: (ns.data ++ ':' :: gid.data)) := by
    show ("urn" ++ ":" ++ "singine" ++ ":" ++ ns ++ ":" ++ gid).data = _
    simp
  rw [hdata]
  rw [show (4 : ℕ) = 2 + 2 from rfl, splitnChars_step ':' 2 _ _ (by decide)]
  rw [show (2 : ℕ) + 1 = 1 + 2 from rfl, splitnChars_step ':' 1 _ _ (by decide)]
  rw [show (1 : ℕ) + 1 = 0 + 2 from rfl, splitnChars_step ':' 0 _ _ h]
  rfl

/-- C5 (amended): for every mint whose namespace contains no `':'`,
`resolve_urn` maps the minted URN back to the minted local id; and every
string without the (splitn-4) `urn:singine:*:*` shape resolves to `none` —
resolution is total, absence is the only non-success outcome. -/
theorem resolve_urn_roundtrip :
    (∀ (ns tok : String) (hint : Option String), ':' ∉ ns.data →
      resolve_urn (mkUrn ns (mkGenId ns tok hint)) = some (mkGenId ns tok hint)) ∧
    (∀ s : String, ¬ UrnShape s → resolve_urn s = none) := by
  constructor
  · intro ns tok hint h
    rw [resolve_urn, splitn_mkUrn ns (mkGenId ns tok hint) h]
    simp
  · intro s hshape
    rw [resolve_urn]
    rcases hp : splitnChars ':' 4 s.data with _ | ⟨p₀, _ | ⟨p₁, _ | ⟨p₂, _ | ⟨p₃, rest⟩⟩⟩⟩ <;>
      try rfl
    rcases rest with _ | ⟨q, rest⟩
    · by_cases hcond : p₀ = "urn".data ∧ p₁ = "singine".data
      · exact absurd ⟨p₂, p₃, by rw [hp, hcond.1, hcond.2]⟩ hshape
      · simp [hcond]
    · rfl

/-- Witness for C5 at a concrete mint and a concrete malformed string. -/
theorem resolve_urn_roundtrip_witness :
    (':' ∉ ("cat" : String).data ∧
      resolve_urn (mkUrn "cat" (mkGenId "cat" "abc12345" none)) =
        some (mkGenId "cat" "abc12345" none)) ∧
    (¬ UrnShape "nope" ∧ resolve_urn "nope" = none) := by
  have hshape : ¬ UrnShape "nope" := by
    rintro ⟨p₂, p₃, h⟩
    rw [show splitnChars ':' 4 ("nope" : String).data = [("nope" : String).data]
      from by decide] at h
    simp at h
  exact ⟨⟨by decide, resolve_urn_roundtrip.1 "cat" "abc12345" none (by decide)⟩,
    ⟨hshape, resolve_urn_roundtrip.2 "nope" hshape⟩⟩

/-- C5 (counterexample to the unamended claim): for a namespace containing
`':'` the URN does not resolve back to the minted local id, because the third
colon of the URN falls inside the namespace. -/
theorem resolve_urn_colon_namespace :
    resolve_urn (mkUrn "a:b" (mkGenId "a:b" "abcd1234" none)) ≠
      some (mkGenId "a:b" "abcd1234" none) := by
  decide

-- ── C6: local-id format and hint sanitization ──────────────────────────────

theorem count_set_set_swap {α : Type} [DecidableEq α] (l : List α) (i j : ℕ)
    (hi : i < l.length) (hj : j < l.length) (a : α) :
    List.count a ((l.set i (l.get ⟨j, hj⟩)).set j (l.get ⟨i, hi⟩)) =
      List.count a l := by
  set A := l.get ⟨i, hi⟩ with hA
  set B := l.get ⟨j, hj⟩ with hB
  have hj' : j < (l.set i B).length := by simpa using hj
  rw [List.count_set A a (l.set i B) j hj', List.count_set B a l i hi]
  have hset : (l.set i B)[j] = if i = j then B else l[j] := List.getElem_set hj'
  have hAi : A = l[i] := by rw [hA]; simp [List.get_eq_getElem]
  have hBj : B = l[j] := by rw [hB]; simp [List.get_eq_getElem]
  have hcA : l[i] = a → 1 ≤ List.count a l := fun h =>
    List.count_pos_iff.mpr (h ▸ List.getElem_mem hi)
  have hcB : l[j] = a → 1 ≤ List.count a l := fun h =>
    List.count_pos_iff.mpr (h ▸ List.getElem_mem hj)
  by_cases hij : i = j
  · subst hij
    rw [hset]
    simp only [if_pos rfl, beq_iff_eq]
    by_cases ha : l[i] = a
    · have h1 := hcA ha
      simp only [hAi, hBj, ite_self, ha, ite_true]
      omega
    · simp only [hAi, hBj, ite_self, ha, ite_false]
      omega
  · rw [hset, if_neg hij]
    simp only [beq_iff_eq]
    by_cases ha : l[i] = a <;> by_cases hb : l[j] = a
    · have h1 := hcA ha
      simp only [hAi, hBj, ha, hb, ite_true]
      omega
    · have h1 := hcA ha
      simp only [hAi, hBj, ha, hb, ite_true, ite_false]
      omega
    · have h1 := hcB hb
      simp only [hAi, hBj, ha, hb, ite_true, ite_false]
      omega
    · simp only [hAi, hBj, ha, hb, ite_false]
      omega

theorem swapL_spec (es es' : List Edge) (i j : ℕ) (h : swapL es i j = some es') :
    i < es.length ∧ j < es.length ∧ es'.length = es.length ∧ es'.Perm es ∧
    es'[i]? = es[j]? ∧ es'[j]? = es[i]? ∧
    ∀ k, k ≠ i → k ≠ j → es'[k]? = es[k]? := by
  rcases hi : es[i]? with _ | a
  · rw [swapL, hi] at h
    cases h
  rcases hj : es[j]? with _ | b
  · rw [swapL, hi, hj] at h
    cases h
  rw [swapL, hi, hj] at h
  injection h with h
  obtain ⟨hi', hia⟩ := List.getElem?_eq_some.mp hi
  obtain ⟨hj', hjb⟩ := List.getElem?_eq_some.mp hj
  have hlen : es'.length = es.length := by
    rw [← h]; simp
  refine ⟨hi', hj', hlen, ?_, ?_, ?_, ?_⟩
  · rw [← h, List.perm_iff_count]
    intro x
    have := count_set_set_swap es i j hi' hj' x
    simpa [List.get_eq_getElem, hia, hjb] using this
  · rw [← h, List.getElem?_set, List.getElem?_set]
    by_cases hij : j = i
    · subst hij
      simp only [if_pos rfl, List.length_set, hj', ite_true, hj]
      rw [← hia, hjb]
    · rw [if_neg hij]
      by_cases hii : i = i
      · simp [hi', hia, hj, hjb]
      · exact absurd rfl hii
  · rw [← h, List.getElem?_set]
    simp [hj', hia, hi]
  · intro k hki hkj
    rw [← h, List.getElem?_set, List.getElem?_set]
    rw [if_neg (fun hh => hkj hh.symm), if_neg (fun hh => hki hh.symm)]

theorem get_eq_of_getElem?_eq {l l' : List Edge} {k : ℕ}
    (h : l'[k]? = l[k]?) (hk' : k < l'.length) (hk : k < l.length) :
    l'.get ⟨k, hk'⟩ = l.get ⟨k, hk⟩ := by
  rw [List.getElem?_eq_getElem hk', List.getElem?_eq_getElem hk] at h
  rw [List.get_eq_getElem, List.get_eq_getElem]
  exact Option.some.inj h

theorem qsLoop_spec (pivotW : ℚ) (lo : ℕ) :
    ∀ (c : ℕ) (es : List Edge) (i j : ℕ),
      lo ≤ i → i ≤ j → j + c ≤ es.length →
      (∀ k (hk : k < es.length), lo ≤ k → k < i → (es.get ⟨k, hk⟩).weight ≤ pivotW) →
      (∀ k (hk : k < es.length), i ≤ k → k < j → pivotW < (es.get ⟨k, hk⟩).weight) →
      ∃ es' i',
        qsLoop pivotW c es i j = some (es', i') ∧
        es'.length = es.length ∧ es'.Perm es ∧
        lo ≤ i' ∧ i ≤ i' ∧ i' ≤ j + c ∧
        (∀ k, k < i ∨ j + c ≤ k → es'[k]? = es[k]?) ∧
        (∀ k (hk : k < es'.length), lo ≤ k → k < i' → (es'.get ⟨k, hk⟩).weight ≤ pivotW) ∧
        (∀ k (hk : k < es'.length), i' ≤ k → k < j + c → pivotW < (es'.get ⟨k, hk⟩).weight) := by
  intro c
  induction c with
  | zero =>
    intro es i j hloi hij hlen hA hB
    refine ⟨es, i, rfl, rfl, List.Perm.refl es, hloi, le_refl i, by omega,
      fun k _ => rfl, hA, fun k hk h1 h2 => hB k hk h1 (by omega)⟩
  | succ c ih =>
    intro es i j hloi hij hlen hA hB
    have hj : j < es.length := by omega
    have hi : i < es.length := by omega
    have hje : es[j]? = some (es.get ⟨j, hj⟩) := by
      rw [List.get_eq_getElem]
      exact List.getElem?_eq_getElem hj
    by_cases he : (es.get ⟨j, hj⟩).weight ≤ pivotW
    · -- swap branch
      have hie : es[i]? = some (es.get ⟨i, hi⟩) := by
        rw [List.get_eq_getElem]
        exact List.getElem?_eq_getElem hi
      have hsw : swapL es i j =
          some ((es.set i (es.get ⟨j, hj⟩)).set j (es.get ⟨i, hi⟩)) := by
        rw [swapL, hie, hje]
      set es₂ := (es.set i (es.get ⟨j, hj⟩)).set j (es.get ⟨i, hi⟩) with hes₂
      obtain ⟨_, _, hlen₂, hperm₂, h₂i, h₂j, h₂other⟩ := swapL_spec es es₂ i j hsw
      have hA₂ : ∀ k (hk : k < es₂.length), lo ≤ k → k < i + 1 →
          (es₂.get ⟨k, hk⟩).weight ≤ pivotW := by
        intro k hk h1 h2
        by_cases hki : k = i
        · subst hki
          have : es₂.get ⟨k, hk⟩ = es.get ⟨j, hj⟩ := by
            have := h₂i.trans hje
            rw [List.getElem?_eq_getElem (hlen₂ ▸ hi)] at this
            rw [List.get_eq_getElem, List.get_eq_getElem]
            exact Option.some.inj this
          rw [this]
          exact he
        · have hkj : k ≠ j := by omega
          have hkl : k < es.length := by omega
          rw [get_eq_of_getElem?_eq (h₂other k hki hkj) hk hkl]
          exact hA k hkl h1 (by omega)
      have hB₂ : ∀ k (hk : k < es₂.length), i + 1 ≤ k → k < j + 1 →
          pivotW < (es₂.get ⟨k, hk⟩).weight := by
        intro k hk h1 h2
        by_cases hkj : k = j
        · subst hkj
          have hij' : i < k := by omega
          have : es₂.get ⟨k, hk⟩ = es.get ⟨i, hi⟩ := by
            have := h₂j.trans hie
            rw [List.getElem?_eq_getElem (hlen₂ ▸ hj)] at this
            rw [List.get_eq_getElem, List.get_eq_getElem]
            exact Option.some.inj this
          rw [this]
          exact hB i hi (le_refl i) hij'
        · have hki : k ≠ i := by omega
          have hkl : k < es.length := by omega
          rw [get_eq_of_getElem?_eq (h₂other k hki hkj) hk hkl]
          exact hB k hkl (by omega) (by omega)
      obtain ⟨es', i', hrun, hlen', hperm', hlo', hii', hle', hout', hA', hB'⟩ :=
        ih es₂ (i + 1) (j + 1) (by omega) (by omega) (by omega) hA₂ hB₂
      refine ⟨es', i', ?_, hlen'.trans hlen₂, hperm'.trans hperm₂,
        hlo', by omega, by omega, ?_, hA', ?_⟩
      · rw [qsLoop, hje]
        dsimp only
        rw [if_pos he, hsw]
        exact hrun
      · intro k hk
        have hki : k ≠ i := by omega
        have hkj : k ≠ j := by omega
        rw [hout' k (by omega)]
        exact h₂other k hki hkj
      · intro k hk h1 h2
        exact hB' k hk h1 (by omega)
    · -- no-swap branch
      have hB₂ : ∀ k (hk : k < es.length), i ≤ k → k < j + 1 →
          pivotW < (es.get ⟨k, hk⟩).weight := by
        intro k hk h1 h2
        by_cases hkj : k = j
        · subst hkj
          have : es.get ⟨k, hk⟩ = es.get ⟨k, hj⟩ := rfl
          rw [this]
          exact lt_of_not_le he
        · exact hB k hk h1 (by omega)
      obtain ⟨es', i', hrun, hlen', hperm', hlo', hii', hle', hout', hA', hB'⟩ :=
        ih es i (j + 1) hloi (by omega) (by omega) hA hB₂
      refine ⟨es', i', ?_, hlen', hperm', hlo', hii', by omega, ?_, hA', ?_⟩
      · rw [qsLoop, hje]
        dsimp only
        rw [if_neg he]
        exact hrun
      · intro k hk
        exact hout' k (by omega)
      · intro k hk h1 h2
        exact hB' k hk h1 (by omega)

-- ── Quicksort: slice lemmas ────────────────────────────────────────────────

theorem sliceIncl_split (m : List Edge) (lo hi : ℕ) (hlh : lo ≤ hi + 1) :
    m.take lo ++ (sliceIncl m lo hi ++ m.drop (hi + 1)) = m := by
  rw [sliceIncl]
  rw [show m.drop (hi + 1) = (m.drop lo).drop (hi + 1 - lo) from by
    rw [List.drop_drop]
    congr 1
    omega]
  rw [List.take_append_drop, List.take_append_drop]

theorem sliceIncl_perm {l l' : List Edge} (lo hi : ℕ)
    (hperm : l'.Perm l) (hout : ∀ k, k < lo ∨ hi < k → l'[k]? = l[k]?) :
    (sliceIncl l' lo hi).Perm (sliceIncl l lo hi) := by
  have htake : l'.take lo = l.take lo := by
    apply List.ext_getElem?
    intro n
    rw [List.getElem?_take, List.getElem?_take]
    by_cases hn : n < lo
    · rw [if_pos hn, if_pos hn, hout n (Or.inl hn)]
    · rw [if_neg hn, if_neg hn]
  have hdrop : l'.drop (hi + 1) = l.drop (hi + 1) := by
    apply List.ext_getElem?
    intro n
    rw [List.getElem?_drop, List.getElem?_drop]
    exact hout (hi + 1 + n) (Or.inr (by omega))
  by_cases hlh : hi + 1 < lo
  · have h1 : hi + 1 - lo = 0 := by omega
    simp [sliceIncl, h1]
  · have hp := hperm
    rw [← sliceIncl_split l' lo hi (by omega), ← sliceIncl_split l lo hi (by omega),
      htake, hdrop] at hp
    rw [List.perm_append_left_iff] at hp
    rw [List.perm_append_right_iff] at hp
    exact hp

theorem mem_sliceIncl_of_get {l : List Edge} {k lo hi : ℕ} (hk : k < l.length)
    (h1 : lo ≤ k) (h2 : k ≤ hi) : l.get ⟨k, hk⟩ ∈ sliceIncl l lo hi := by
  have hh : (sliceIncl l lo hi)[k - lo]? = some (l.get ⟨k, hk⟩) := by
    rw [sliceIncl, List.getElem?_take, if_pos (by omega), List.getElem?_drop]
    rw [show lo + (k - lo) = k from by omega, List.get_eq_getElem]
    exact List.getElem?_eq_getElem hk
  exact List.getElem?_mem hh

theorem sliceIncl_mem_elim {l : List Edge} {lo hi : ℕ} {a : Edge}
    (h : a ∈ sliceIncl l lo hi) :
    ∃ k, ∃ hk : k < l.length, lo ≤ k ∧ k ≤ hi ∧ l.get ⟨k, hk⟩ = a := by
  obtain ⟨n, hn, heq⟩ := List.mem_iff_getElem.mp h
  simp only [sliceIncl] at hn heq
  have hn' : n < hi + 1 - lo ∧ n < (l.drop lo).length := by
    constructor <;> [skip; skip] <;>
      · have := hn
        rw [List.length_take] at this
        omega
  have hlen : lo + n < l.length := by
    have := hn'.2
    rw [List.length_drop] at this
    omega
  refine ⟨lo + n, hlen, by omega, by omega, ?_⟩
  rw [List.get_eq_getElem, ← heq, List.getElem_take, List.getElem_drop]

/-- Transport of a pointwise property on an index range across a permutation
that fixes everything outside the range. -/
theorem pres_within {l l' : List Edge} {lo hi : ℕ}
    (hperm : l'.Perm l) (hout : ∀ k, k < lo ∨ hi < k → l'[k]? = l[k]?)
    (P : Edge → Prop)
    (hP : ∀ k (hk : k < l.length), lo ≤ k → k ≤ hi → P (l.get ⟨k, hk⟩)) :
    ∀ k (hk : k < l'.length), lo ≤ k → k ≤ hi → P (l'.get ⟨k, hk⟩) := by
  intro k hk h1 h2
  have hmem : l'.get ⟨k, hk⟩ ∈ sliceIncl l' lo hi := mem_sliceIncl_of_get hk h1 h2
  have hmem2 : l'.get ⟨k, hk⟩ ∈ sliceIncl l lo hi :=
    (sliceIncl_perm lo hi hperm hout).mem_iff.mp hmem
  obtain ⟨n, hn, hn1, hn2, hn3⟩ := sliceIncl_mem_elim hmem2
  rw [← hn3]
  exact hP n hn hn1 hn2

-- ── Quicksort: partition correctness ───────────────────────────────────────

theorem qs_partition_spec :
    ∀ (fuel : ℕ) (es : List Edge) (lo hi : ℕ),
      hi < es.length → hi - lo + 2 ≤ fuel →
      ∃ es', qs_partition fuel es lo hi = some es' ∧
        es'.length = es.length ∧ es'.Perm es ∧
        (∀ k, k < lo ∨ hi < k → es'[k]? = es[k]?) ∧
        sortedWithin es' lo hi := by
  intro fuel
  induction fuel with
  | zero =>
    intro es lo hi h1 h2
    omega
  | succ fuel ih =>
    intro es lo hi hhi hfuel
    by_cases hlohi : lo ≥ hi
    · refine ⟨es, ?_, rfl, List.Perm.refl es, fun k _ => rfl, ?_⟩
      · rw [qs_partition, if_pos hlohi]
      · intro k hk1 hk2 hk
        omega
    push_neg at hlohi
    have hpe : es[hi]? = some (es.get ⟨hi, hhi⟩) := by
      rw [List.get_eq_getElem]
      exact List.getElem?_eq_getElem hhi
    set pivot := es.get ⟨hi, hhi⟩ with hpivot
    obtain ⟨es₁, i, hrun₁, hlen₁, hperm₁, hloi, _, hile, hout₁, hA₁, hB₁⟩ :=
      qsLoop_spec pivot.weight lo (hi - lo) es lo lo (le_refl lo) (le_refl lo)
        (by omega) (fun k hk h1 h2 => ((by omega : False).elim))
        (fun k hk h1 h2 => ((by omega : False).elim))
    have hihi : i ≤ hi := by omega
    have hi1 : i < es₁.length := by omega
    have hhi1 : hi < es₁.length := by omega
    have h1e : es₁[i]? = some (es₁.get ⟨i, hi1⟩) := by
      rw [List.get_eq_getElem]
      exact List.getElem?_eq_getElem hi1
    have h2e : es₁[hi]? = some (es₁.get ⟨hi, hhi1⟩) := by
      rw [List.get_eq_getElem]
      exact List.getElem?_eq_getElem hhi1
    have hsw : swapL es₁ i hi =
        some ((es₁.set i (es₁.get ⟨hi, hhi1⟩)).set hi (es₁.get ⟨i, hi1⟩)) := by
      rw [swapL, h1e, h2e]
    set es₂ := (es₁.set i (es₁.get ⟨hi, hhi1⟩)).set hi (es₁.get ⟨i, hi1⟩) with hes₂
    obtain ⟨_, _, hlen₂, hperm₂, h₂i, h₂hi, h₂other⟩ := swapL_spec es₁ es₂ i hi hsw
    have hes₁hi : es₁[hi]? = es[hi]? := hout₁ hi (Or.inr (by omega))
    have hes₂i : es₂[i]? = some pivot := by
      rw [h₂i, hes₁hi, hpe]
    -- values of es₂ strictly above the pivot position exceed the pivot weight
    have hB₂ : ∀ k (hk : k < es₂.length), i + 1 ≤ k → k ≤ hi →
        pivot.weight < (es₂.get ⟨k, hk⟩).weight := by
      intro k hk hk1 hk2
      by_cases hkhi : k = hi
      · subst hkhi
        have hik : i < k := by omega
        have hget : es₂.get ⟨k, hk⟩ = es₁.get ⟨i, hi1⟩ := by
          have := h₂hi.trans h1e
          rw [List.getElem?_eq_getElem hk] at this
          rw [List.get_eq_getElem]
          exact Option.some.inj this
        rw [hget]
        exact hB₁ i hi1 (le_refl i) (by omega)
      · have hk1' : k < es₁.length := by omega
        have hget := get_eq_of_getElem?_eq (h₂other k (by omega) hkhi) hk hk1'
        rw [hget]
        exact hB₁ k hk1' (by omega) (by omega)
    -- values of es₂ strictly below the pivot position are at most the pivot weight
    have hA₂ : 0 < i → ∀ k (hk : k < es₂.length), lo ≤ k → k ≤ i - 1 →
        (es₂.get ⟨k, hk⟩).weight ≤ pivot.weight := by
      intro hi0 k hk hk1 hk2
      have hk1' : k < es₁.length := by omega
      have hget := get_eq_of_getElem?_eq (h₂other k (by omega) (by omega)) hk hk1'
      rw [hget]
      exact hA₁ k hk1' hk1 (by omega)
    -- left recursive call (guarded by 0 < i in the source)
    have hleft : ∃ es₃,
        (if 0 < i then qs_partition fuel es₂ lo (i - 1) else some es₂) = some es₃ ∧
        es₃.length = es₂.length ∧ es₃.Perm es₂ ∧
        (∀ k, k < lo ∨ i ≤ k → es₃[k]? = es₂[k]?) ∧
        sortedWithin es₃ lo (i - 1) := by
      by_cases hi0 : 0 < i
      · rw [if_pos hi0]
        obtain ⟨es₃, hr, hl, hp, ho, hs⟩ := ih es₂ lo (i - 1) (by omega) (by omega)
        exact ⟨es₃, hr, hl, hp, fun k hk => ho k (by omega), hs⟩
      · rw [if_neg hi0]
        refine ⟨es₂, rfl, rfl, List.Perm.refl es₂, fun k _ => rfl, ?_⟩
        intro k h1 h2 hk
        omega
    obtain ⟨es₃, hrun₃, hlen₃, hperm₃, hout₃, hsort₃⟩ := hleft
    -- right recursive call
    obtain ⟨es₄, hrun₄, hlen₄, hperm₄, hout₄, hsort₄⟩ :=
      ih es₃ (i + 1) hi (by omega) (by omega)
    refine ⟨es₄, ?_, ?_, ?_, ?_, ?_⟩
    · rw [qs_partition, if_neg (by omega), hpe]
      dsimp only
      rw [hrun₁]
      dsimp only
      rw [hsw]
      dsimp only
      rw [hrun₃]
      dsimp only
      exact hrun₄
    · omega
    · exact ((hperm₄.trans hperm₃).trans hperm₂).trans hperm₁
    · intro k hk
      rw [hout₄ k (by omega), hout₃ k (by omega),
        h₂other k (by omega) (by omega), hout₁ k (by omega)]
    -- sortedness on [lo, hi]
    · have hl₄ : es₄.length = es.length := by omega
      -- positions at most i - 1 (when 0 < i) carry weights ≤ pivot, in es₃
      have hA₃ : 0 < i → ∀ k (hk : k < es₃.length), lo ≤ k → k ≤ i - 1 →
          (es₃.get ⟨k, hk⟩).weight ≤ pivot.weight := by
        intro hi0
        exact pres_within hperm₃ (fun k hk => hout₃ k (by omega))
          (fun e => e.weight ≤ pivot.weight) (hA₂ hi0)
      -- positions in [i+1, hi] carry weights > pivot, in es₄
      have hB₄ : ∀ k (hk : k < es₄.length), i + 1 ≤ k → k ≤ hi →
          pivot.weight < (es₄.get ⟨k, hk⟩).weight := by
        have hB₃ : ∀ k (hk : k < es₃.length), i + 1 ≤ k → k ≤ hi →
            pivot.weight < (es₃.get ⟨k, hk⟩).weight := by
          intro k hk hk1 hk2
          have hk2' : k < es₂.length := by omega
          have hget := get_eq_of_getElem?_eq (hout₃ k (by omega)) hk hk2'
          rw [hget]
          exact hB₂ k hk2' hk1 hk2
        exact pres_within hperm₄ hout₄ (fun e => pivot.weight < e.weight) hB₃
      -- the pivot sits at position i in es₄
      have hpiv₄ : es₄[i]? = some pivot := by
        rw [hout₄ i (Or.inl (by omega)), hout₃ i (Or.inr (le_refl i)), hes₂i]
      -- positions at most i - 1 of es₄ agree with es₃ there
      have heq₄₃ : ∀ k, k ≤ i → es₄[k]? = es₃[k]? := by
        intro k hk
        exact hout₄ k (Or.inl (by omega))
      intro k hk1 hk2 hkl
      have hkl' : k < es₄.length := Nat.lt_of_succ_lt hkl
      rcases Nat.lt_trichotomy (k + 1) i with hc | hc | hc
      · -- both indices strictly left of the pivot
        have hi0 : 0 < i := by omega
        have hk3 : k < es₃.length := by omega
        have hk3' : k + 1 < es₃.length := by omega
        rw [get_eq_of_getElem?_eq (heq₄₃ k (by omega)) (Nat.lt_of_succ_lt hkl) hk3,
          get_eq_of_getElem?_eq (heq₄₃ (k + 1) (by omega)) hkl hk3']
        exact hsort₃ k hk1 (by omega) hk3'
      · -- right index is the pivot position
        have hi0 : 0 < i := by omega
        have hgetk : (es₄.get ⟨k, Nat.lt_of_succ_lt hkl⟩).weight ≤ pivot.weight := by
          have hk3 : k < es₃.length := by omega
          rw [get_eq_of_getElem?_eq (heq₄₃ k (by omega)) (Nat.lt_of_succ_lt hkl) hk3]
          exact hA₃ hi0 k hk3 hk1 (by omega)
        have hgetk1 : es₄.get ⟨k + 1, hkl⟩ = pivot := by
          have := hpiv₄
          rw [← hc] at this
          rw [List.getElem?_eq_getElem hkl] at this
          rw [List.get_eq_getElem]
          exact Option.some.inj this
        rw [hgetk1]
        exact hgetk
      · rcases Nat.lt_or_ge i k with hc2 | hc2
        · -- both indices strictly right of the pivot
          exact hsort₄ k (by omega) hk2 hkl
        · -- left index is the pivot position
          have hki : k = i := by omega
          have hgetk : es₄.get ⟨k, Nat.lt_of_succ_lt hkl⟩ = pivot := by
            have := hpiv₄
            rw [← hki] at this
            rw [List.getElem?_eq_getElem (Nat.lt_of_succ_lt hkl)] at this
            rw [List.get_eq_getElem]
            exact Option.some.inj this
          rw [hgetk]
          exact le_of_lt (hB₄ (k + 1) hkl (by omega) hk2)

/-- C3: `quicksort_edges` orders every finite edge list ascending by weight
(every adjacent pair satisfies `edges[k].weight ≤ edges[k+1].weight`) and
returns a permutation of its input. -/
theorem quicksort_edges_sorted_perm (es : List Edge) :
    (∀ k (hk : k + 1 < (quicksort_edges es).length),
      ((quicksort_edges es).get ⟨k, Nat.lt_of_succ_lt hk⟩).weight ≤
        ((quicksort_edges es).get ⟨k + 1, hk⟩).weight) ∧
    (quicksort_edges es).Perm es := by
  by_cases hn : es.length < 2
  · rw [quicksort_edges, if_pos hn]
    refine ⟨?_, List.Perm.refl es⟩
    intro k hk
    exact ((by omega : False)).elim
  · push_neg at hn
    obtain ⟨es', hrun, hlen, hperm, hout, hsort⟩ :=
      qs_partition_spec (es.length + 1) es 0 (es.length - 1) (by omega) (by omega)
    rw [quicksort_edges, if_neg (by omega), hrun]
    simp only [Option.getD_some]
    refine ⟨?_, hperm⟩
    intro k hk
    exact hsort k (Nat.zero_le k) (by omega) hk

/-- Witness for C3 on the edge list of the source's own unit test. -/
theorem quicksort_edges_sorted_perm_witness :
    ((0 : ℕ) + 1 <
        (quicksort_edges [⟨"3", "a", "b", 3, "s"⟩, ⟨"1", "b", "c", 1, "s"⟩,
          ⟨"2", "a", "c", 2, "s"⟩]).length ∧
      ((quicksort_edges [⟨"3", "a", "b", 3, "s"⟩, ⟨"1", "b", "c", 1, "s"⟩,
          ⟨"2", "a", "c", 2, "s"⟩]).get ⟨0, by decide⟩).weight ≤
        ((quicksort_edges [⟨"3", "a", "b", 3, "s"⟩, ⟨"1", "b", "c", 1, "s"⟩,
          ⟨"2", "a", "c", 2, "s"⟩]).get ⟨0 + 1, by decide⟩).weight) ∧
    (quicksort_edges [⟨"3", "a", "b", 3, "s"⟩, ⟨"1", "b", "c", 1, "s"⟩,
      ⟨"2", "a", "c", 2, "s"⟩]).Perm
        [⟨"3", "a", "b", 3, "s"⟩, ⟨"1", "b", "c", 1, "s"⟩, ⟨"2", "a", "c", 2, "s"⟩] :=
  ⟨⟨by decide,
    (quicksort_edges_sorted_perm [⟨"3", "a", "b", 3, "s"⟩, ⟨"1", "b", "c", 1, "s"⟩,
      ⟨"2", "a", "c", 2, "s"⟩]).1 0 (by decide)⟩,
    (quicksort_edges_sorted_perm [⟨"3", "a", "b", 3, "s"⟩, ⟨"1", "b", "c", 1, "s"⟩,
      ⟨"2", "a", "c", 2, "s"⟩]).2⟩

/-- C10: `qs_partition` terminates on every finite edge list — all weight
values included — whenever the fuel covers the recursion depth bound
`hi - lo + 2` (each recursive call shrinks the index range strictly, so
`quicksort_edges`'s call with fuel `length + 1` always succeeds); every index
access stays in bounds (an out-of-bounds access would yield `none`). -/
theorem qs_partition_terminates (es : List Edge) (lo hi fuel : ℕ)
    (h1 : hi < es.length) (h2 : hi - lo + 2 ≤ fuel) :
    ∃ es', qs_partition fuel es lo hi = some es' ∧ es'.length = es.length := by
  obtain ⟨es', hr, hl, _, _, _⟩ := qs_partition_spec fuel es lo hi h1 h2
  exact ⟨es', hr, hl⟩

/-- Witness for C10 on a list with all-equal weights (the adversarial case
for Lomuto partitioning). -/
theorem qs_partition_terminates_witness :
    ((2 : ℕ) <
        ([⟨"a", "x", "y", 1, "s"⟩, ⟨"b", "y", "z", 1, "s"⟩,
          ⟨"c", "z", "x", 1, "s"⟩] : List Edge).length ∧ 2 - 0 + 2 ≤ 4) ∧
    ∃ es', qs_partition 4 [⟨"a", "x", "y", 1, "s"⟩, ⟨"b", "y", "z", 1, "s"⟩,
        ⟨"c", "z", "x", 1, "s"⟩] 0 2 = some es' ∧
      es'.length = ([⟨"a", "x", "y", 1, "s"⟩, ⟨"b", "y", "z", 1, "s"⟩,
        ⟨"c", "z", "x", 1, "s"⟩] : List Edge).length :=
  ⟨⟨by decide, by decide⟩,
    qs_partition_terminates [⟨"a", "x", "y", 1, "s"⟩, ⟨"b", "y", "z", 1, "s"⟩,
      ⟨"c", "z", "x", 1, "s"⟩] 0 2 4 (by decide) (by decide)⟩

-- ── Walk lemmas ────────────────────────────────────────────────────────────

theorem alookup_mem {β : Type} {k : String} {v : β} :
    ∀ {l : List (String × β)}, alookup k l = some v → (k, v) ∈ l := by
  intro l
  induction l with
  | nil =>
    intro h
    simp [alookup] at h
  | cons p rest ih =>
    intro h
    obtain ⟨k', v'⟩ := p
    by_cases hk : k' = k
    · subst hk
      rw [alookup, if_pos rfl] at h
      injection h with h
      subst h
      exact List.mem_cons_self _ _
    · rw [alookup, if_neg hk] at h
      exact List.mem_cons_of_mem _ (ih h)

theorem adjNonneg_get {adj : AdjMap} (h : AdjNonneg adj) {a : String}
    {bw : String × ℚ} (hm : bw ∈ adjGetD adj a) : 0 ≤ bw.2 := by
  rw [adjGetD] at hm
  rcases hl : alookup a adj with _ | l
  · rw [hl] at hm
    simp at hm
  · rw [hl] at hm
    simp only [Option.getD_some] at hm
    exact h (a, l) (alookup_mem hl) bw hm

theorem mem_adjNodes_of {adj : AdjMap} {k : String} {l : List (String × ℚ)}
    (h : (k, l) ∈ adj) {x : String} (hx : x ∈ l.map Prod.fst) :
    x ∈ adjNodes adj :=
  List.mem_flatMap.mpr ⟨(k, l), h, List.mem_cons_of_mem _ hx⟩

theorem adj_mem_nodes {adj : AdjMap} {a : String} {bw : String × ℚ}
    (hm : bw ∈ adjGetD adj a) : bw.1 ∈ adjNodes adj := by
  rw [adjGetD] at hm
  rcases hl : alookup a adj with _ | l
  · rw [hl] at hm
    simp at hm
  · rw [hl] at hm
    simp only [Option.getD_some] at hm
    exact mem_adjNodes_of (alookup_mem hl) (List.mem_map_of_mem Prod.fst hm)

theorem walk_head_eq {adj : AdjMap} {s t : String} {p : List String} {c : ℚ}
    (h : Walk adj s t p c) : ∃ rest, p = s :: rest := by
  cases h with
  | nil v => exact ⟨[], rfl⟩
  | cons a b t w p c hm hw => exact ⟨p, rfl⟩

theorem walk_getLast_eq {adj : AdjMap} {s t : String} {p : List String} {c : ℚ}
    (h : Walk adj s t p c) : p.getLast? = some t := by
  induction h with
  | nil v => rfl
  | cons a b t w p c hm hw ih =>
    obtain ⟨rest, hrest⟩ := walk_head_eq hw
    subst hrest
    rw [List.getLast?_cons_cons]
    exact ih

theorem walk_cost_nonneg {adj : AdjMap} {s t : String} {p : List String} {c : ℚ}
    (hnn : AdjNonneg adj) (h : Walk adj s t p c) : 0 ≤ c := by
  induction h with
  | nil v => exact le_refl 0
  | cons a b t w p c hm hw ih =>
    have := adjNonneg_get hnn hm
    linarith

theorem walk_snoc {adj : AdjMap} {s t : String} {p : List String} {c : ℚ}
    (h : Walk adj s t p c) :
    ∀ {n : String} {w : ℚ}, (n, w) ∈ adjGetD adj t →
      Walk adj s n (p ++ [n]) (c + w) := by
  induction h with
  | nil v =>
    intro n w hm
    have h2 := Walk.cons v n n w [n] 0 hm (Walk.nil n)
    simpa [add_comm] using h2
  | cons a b t w' p c hm' hw ih =>
    intro n w hm
    have h2 := Walk.cons a b n w' (p ++ [n]) (c + w) hm' (ih hm)
    simpa [add_assoc] using h2

theorem walk_trans {adj : AdjMap} {s m : String} {p : List String} {c : ℚ}
    (h1 : Walk adj s m p c) :
    ∀ {t : String} {q : List String} {d : ℚ}, Walk adj m t q d →
      Walk adj s t (p ++ q.tail) (c + d) := by
  induction h1 with
  | nil v =>
    intro t q d h2
    obtain ⟨rest, hrest⟩ := walk_head_eq h2
    subst hrest
    simpa using h2
  | cons a b m w p c hm hw ih =>
    intro t q d h2
    have h3 := Walk.cons a b t w (p ++ q.tail) (c + d) hm (ih h2)
    simpa [add_assoc] using h3

theorem walk_mem_nodes {adj : AdjMap} {s t : String} {p : List String} {c : ℚ}
    (h : Walk adj s t p c) : ∀ x ∈ p, x = s ∨ x ∈ adjNodes adj := by
  induction h with
  | nil v =>
    intro x hx
    simp at hx
    exact Or.inl hx
  | cons a b t w p c hm hw ih =>
    intro x hx
    rcases List.mem_cons.mp hx with hxa | hxp
    · exact Or.inl hxa
    · rcases ih x hxp with hxb | hxn
      · exact Or.inr (hxb ▸ adj_mem_nodes hm)
      · exact Or.inr hxn

theorem walk_mem_dijkstraNodes {adj : AdjMap} {s t : String} {p : List String}
    {c : ℚ} (h : Walk adj s t p c) {x : String} (hx : x ∈ p) :
    x ∈ dijkstraNodes adj s := by
  rw [dijkstraNodes, List.mem_dedup]
  rcases walk_mem_nodes h x hx with h1 | h1
  · exact h1 ▸ List.mem_cons_self _ _
  · exact List.mem_cons_of_mem _ h1

theorem walk_suffix_from {adj : AdjMap} (hnn : AdjNonneg adj) {s t : String}
    {p : List String} {c : ℚ} (h : Walk adj s t p c) :
    ∀ y ∈ p, ∃ q d, Walk adj y t q d ∧ d ≤ c ∧ q.IsSuffix p := by
  induction h with
  | nil v =>
    intro y hy
    simp at hy
    subst hy
    exact ⟨[y], 0, Walk.nil y, le_refl 0, List.suffix_refl _⟩
  | cons a b t w p c hm hw ih =>
    intro y hy
    rcases List.mem_cons.mp hy with hya | hyp
    · subst hya
      exact ⟨y :: p, w + c, Walk.cons y b t w p c hm hw, le_refl _,
        List.suffix_refl _⟩
    · obtain ⟨q, d, hwq, hd, hsuf⟩ := ih y hyp
      have hw0 : 0 ≤ w := adjNonneg_get hnn hm
      exact ⟨q, d, hwq, by linarith, hsuf.trans (List.suffix_cons a p)⟩

theorem walk_erase_loops {adj : AdjMap} (hnn : AdjNonneg adj) {s t : String}
    {p : List String} {c : ℚ} (h : Walk adj s t p c) :
    ∃ q d, Walk adj s t q d ∧ q.Nodup ∧ d ≤ c := by
  induction h with
  | nil v => exact ⟨[v], 0, Walk.nil v, List.nodup_singleton v, le_refl 0⟩
  | cons a b t w p c hm hw ih =>
    obtain ⟨q, d, hwq, hnd, hd⟩ := ih
    have hw0 : 0 ≤ w := adjNonneg_get hnn hm
    by_cases ha : a ∈ q
    · obtain ⟨q', d', hwq', hd', hsuf⟩ := walk_suffix_from hnn hwq a ha
      exact ⟨q', d', hwq', List.Nodup.sublist hsuf.sublist hnd, by linarith⟩
    · exact ⟨a :: q, w + d, Walk.cons a b t w q d hm hwq,
        List.nodup_cons.mpr ⟨ha, hnd⟩, by linarith⟩

-- ── Enumerated walk costs: soundness and completeness ──────────────────────

theorem seqCosts_complete {adj : AdjMap} {a t : String} {p : List String} {c : ℚ}
    (h : Walk adj a t p c) : c ∈ seqCosts adj a p.tail := by
  induction h with
  | nil v => simp [seqCosts]
  | cons a b t w p c hm hw ih =>
    obtain ⟨rest, hrest⟩ := walk_head_eq hw
    subst hrest
    simp only [List.tail_cons]
    rw [seqCosts]
    apply List.mem_flatMap.mpr
    refine ⟨(b, w), ?_, ?_⟩
    · exact List.mem_filter.mpr ⟨hm, by simp⟩
    · apply List.mem_map.mpr
      refine ⟨c, ?_, rfl⟩
      simpa using ih

theorem seqCosts_sound {adj : AdjMap} :
    ∀ (l : List String) (a : String) (c : ℚ), c ∈ seqCosts adj a l →
      ∃ t, Walk adj a t (a :: l) c ∧ (a :: l).getLast? = some t := by
  intro l
  induction l with
  | nil =>
    intro a c hc
    simp [seqCosts] at hc
    subst hc
    exact ⟨a, Walk.nil a, rfl⟩
  | cons b rest ih =>
    intro a c hc
    rw [seqCosts] at hc
    obtain ⟨bw, hbw, hc2⟩ := List.mem_flatMap.mp hc
    obtain ⟨hbw_mem, hbw_eq⟩ := List.mem_filter.mp hbw
    obtain ⟨c', hc', hcc⟩ := List.mem_map.mp hc2
    have hb1 : bw.1 = b := of_decide_eq_true hbw_eq
    obtain ⟨t, hwt, hlast⟩ := ih b c' hc'
    have hmem : (b, bw.2) ∈ adjGetD adj a := by
      rw [← hb1]
      exact hbw_mem
    refine ⟨t, ?_, ?_⟩
    · rw [← hcc]
      exact Walk.cons a b t bw.2 (b :: rest) c' hmem hwt
    · rw [List.getLast?_cons_cons]
      exact hlast

theorem pathCostsTo_sound {adj : AdjMap} {src v : String} {c : ℚ}
    (hc : c ∈ pathCostsTo adj src v) : ∃ p, Walk adj src v p c := by
  rw [pathCostsTo, List.mem_toFinset] at hc
  obtain ⟨l, hl, hcl⟩ := List.mem_flatMap.mp hc
  obtain ⟨hl_mem, hl_cond⟩ := List.mem_filter.mp hl
  obtain ⟨hhead, hlast⟩ := of_decide_eq_true hl_cond
  have hlne : l = src :: l.tail := by
    cases l with
    | nil => simp at hhead
    | cons x xs =>
      simp only [List.head?_cons, Option.some.injEq] at hhead
      rw [hhead]
      rfl
  obtain ⟨t, hwt, hlastt⟩ := seqCosts_sound l.tail src c hcl
  rw [← hlne] at hwt hlastt
  have ht : t = v := Option.some.inj (hlastt.symm.trans hlast)
  exact ⟨l, ht ▸ hwt⟩

theorem pathCostsTo_complete {adj : AdjMap} {src v : String} {p : List String}
    {c : ℚ} (h : Walk adj src v p c) (hnd : p.Nodup) :
    c ∈ pathCostsTo adj src v := by
  rw [pathCostsTo, List.mem_toFinset]
  apply List.mem_flatMap.mpr
  refine ⟨p, ?_, seqCosts_complete h⟩
  apply List.mem_filter.mpr
  constructor
  · rw [nodupLists]
    have hsub : p ⊆ dijkstraNodes adj src := fun x hx => walk_mem_dijkstraNodes h hx
    have hsp : p.Subperm (dijkstraNodes adj src) := List.Nodup.subperm hnd hsub
    obtain ⟨l', hperm, hsl⟩ := hsp
    apply List.mem_flatMap.mpr
    exact ⟨l', List.mem_sublists.mpr hsl, List.mem_permutations.mpr hperm.symm⟩
  · apply decide_eq_true
    obtain ⟨rest, hrest⟩ := walk_head_eq h
    refine ⟨?_, walk_getLast_eq h⟩
    rw [hrest]
    rfl

theorem pathCostsTo_nonempty {adj : AdjMap} {src dst : String}
    (hnn : AdjNonneg adj) (hr : Reachable adj src dst) :
    (pathCostsTo adj src dst).Nonempty := by
  obtain ⟨p, c, hw⟩ := hr
  obtain ⟨q, d, hwq, hnd, _⟩ := walk_erase_loops hnn hw
  exact ⟨d, pathCostsTo_complete hwq hnd⟩

theorem cstar_spec {adj : AdjMap} {src dst : String}
    (hnn : AdjNonneg adj) (hr : Reachable adj src dst) :
    ∃ cstar : ℚ, (∃ P, Walk adj src dst P cstar) ∧
      ∀ p c, Walk adj src dst p c → cstar ≤ c := by
  have hne := pathCostsTo_nonempty hnn hr
  refine ⟨(pathCostsTo adj src dst).min' hne, ?_, ?_⟩
  · exact pathCostsTo_sound (Finset.min'_mem _ hne)
  · intro p c hw
    obtain ⟨q, d, hwq, hnd, hd⟩ := walk_erase_loops hnn hw
    exact le_trans (Finset.min'_le _ d (pathCostsTo_complete hwq hnd)) hd

-- ── Heap and distance-table lemmas ─────────────────────────────────────────

theorem popMin_eq_none {heap : List DState} : popMin heap = none ↔ heap = [] := by
  cases heap with
  | nil => simp [popMin]
  | cons e rest =>
    rw [popMin]
    rcases h : popMin rest with _ | p
    · simp
    · obtain ⟨m, rest'⟩ := p
      by_cases hc : e.cost ≤ m.cost <;> simp [hc]

theorem popMin_spec : ∀ {heap : List DState} {m : DState} {rest' : List DState},
    popMin heap = some (m, rest') →
    m ∈ heap ∧ heap.Perm (m :: rest') ∧ ∀ x ∈ heap, m.cost ≤ x.cost := by
  intro heap
  induction heap with
  | nil =>
    intro m rest' h
    simp [popMin] at h
  | cons e rest ih =>
    intro m rest' h
    rw [popMin] at h
    rcases hr : popMin rest with _ | p
    · rw [hr] at h
      dsimp only at h
      injection h with h
      injection h with h1 h2
      subst h1
      subst h2
      have hrn : rest = [] := popMin_eq_none.mp hr
      subst hrn
      refine ⟨List.mem_cons_self _ _, List.Perm.refl _, ?_⟩
      intro x hx
      rcases List.mem_cons.mp hx with hx | hx
      · rw [hx]
      · simp at hx
    · obtain ⟨m', rest''⟩ := p
      rw [hr] at h
      dsimp only at h
      obtain ⟨hm', hperm', hmin'⟩ := ih hr
      by_cases hc : e.cost ≤ m'.cost
      · rw [if_pos hc] at h
        injection h with h
        injection h with h1 h2
        subst h1
        subst h2
        refine ⟨List.mem_cons_self _ _, List.Perm.refl _, ?_⟩
        intro x hx
        rcases List.mem_cons.mp hx with hx | hx
        · rw [hx]
        · exact le_trans hc (hmin' x hx)
      · rw [if_neg hc] at h
        injection h with h
        injection h with h1 h2
        subst h1
        subst h2
        refine ⟨List.mem_cons_of_mem _ hm', ?_, ?_⟩
        · exact (hperm'.cons e).trans (List.Perm.swap m' e rest'')
        · intro x hx
          rcases List.mem_cons.mp hx with hx | hx
          · rw [hx]
            exact le_of_lt (lt_of_not_le hc)
          · exact hmin' x hx

theorem alookup_distUpdate_self (k : String) (v : ℚ) :
    ∀ dist : List (String × ℚ), alookup k (distUpdate k v dist) = some v := by
  intro dist
  induction dist with
  | nil => simp [distUpdate, alookup]
  | cons p rest ih =>
    obtain ⟨k', v'⟩ := p
    by_cases hk : k' = k
    · subst hk
      simp [distUpdate, alookup]
    · simp only [distUpdate, hk, ite_false, if_neg]
      rw [alookup, if_neg hk]
      exact ih

theorem alookup_distUpdate_ne (k u : String) (v : ℚ) (hne : u ≠ k) :
    ∀ dist : List (String × ℚ),
      alookup u (distUpdate k v dist) = alookup u dist := by
  intro dist
  induction dist with
  | nil =>
    simp only [distUpdate, alookup]
    rw [if_neg (fun h => hne h.symm)]
  | cons p rest ih =>
    obtain ⟨k', v'⟩ := p
    by_cases hk : k' = k
    · subst hk
      rw [distUpdate, if_pos rfl, alookup, alookup,
        if_neg (fun h => hne h.symm), if_neg (fun h => hne h.symm)]
    · rw [distUpdate, if_neg hk, alookup, alookup]
      by_cases hu : k' = u
      · rw [if_pos hu, if_pos hu]
      · rw [if_neg hu, if_neg hu]
        exact ih

-- ── Measure lemmas ─────────────────────────────────────────────────────────

theorem countBelow_update_lt {adj : AdjMap} {src v : String} {cand : ℚ}
    (hin : cand ∈ pathCostsTo adj src v) (old : Option ℚ)
    (himp : old = none ∨ ∃ d, old = some d ∧ cand < d) :
    countBelow adj src v (some cand) < countBelow adj src v old := by
  rcases himp with hnone | ⟨d, hsome, hlt⟩
  · subst hnone
    rw [countBelow, countBelow]
    apply Finset.card_lt_card
    apply (Finset.ssubset_iff_of_subset (Finset.filter_subset _ _)).mpr
    exact ⟨cand, hin, by simp⟩
  · subst hsome
    rw [countBelow, countBelow]
    apply Finset.card_lt_card
    apply (Finset.ssubset_iff_of_subset ?_).mpr
    · exact ⟨cand, Finset.mem_filter.mpr ⟨hin, hlt⟩, by simp⟩
    · intro x hx
      obtain ⟨hx1, hx2⟩ := Finset.mem_filter.mp hx
      exact Finset.mem_filter.mpr ⟨hx1, lt_trans hx2 hlt⟩

theorem sum_map_lt_of_mem {l : List String} {f g : String → ℕ} (hnd : l.Nodup)
    {b : String} (hb : b ∈ l) (hle : ∀ v ∈ l, g v ≤ f v) (hlt : g b < f b) :
    (l.map g).sum < (l.map f).sum := by
  induction l with
  | nil => simp at hb
  | cons x rest ih =>
    simp only [List.map_cons, List.sum_cons]
    rcases List.mem_cons.mp hb with hbx | hbr
    · subst hbx
      have h2 : (rest.map g).sum ≤ (rest.map f).sum := by
        apply List.sum_le_sum
        intro u hu
        exact hle u (List.mem_cons_of_mem _ hu)
      omega
    · have h1 : g x ≤ f x := hle x (List.mem_cons_self _ _)
      have h2 := ih (List.nodup_cons.mp hnd).2 hbr
        (fun v hv => hle v (List.mem_cons_of_mem _ hv))
      omega

theorem distWeight_update_lt {adj : AdjMap} {src : String}
    {dist : List (String × ℚ)} {v : String} {cand : ℚ}
    (hv : v ∈ dijkstraNodes adj src) (hin : cand ∈ pathCostsTo adj src v)
    (himp : alookup v dist = none ∨ ∃ d, alookup v dist = some d ∧ cand < d) :
    distWeight adj src (distUpdate v cand dist) < distWeight adj src dist := by
  rw [distWeight, distWeight]
  apply sum_map_lt_of_mem ?_ hv
  · intro u hu
    by_cases huv : u = v
    · subst huv
      rw [alookup_distUpdate_self]
      exact le_of_lt (countBelow_update_lt hin _ himp)
    · rw [alookup_distUpdate_ne v u cand huv]
  · rw [alookup_distUpdate_self]
    exact countBelow_update_lt hin _ himp
  · rw [dijkstraNodes]
    exact List.nodup_dedup _

-- ── Relaxation lemma ───────────────────────────────────────────────────────

theorem relax_spec {adj : AdjMap} {src : String} (hnn : AdjNonneg adj)
    (cost : ℚ) (hist : List String) (node : String)
    (hwalk : Walk adj src node hist cost) (hnodup : hist.Nodup) :
    ∀ (nbrs : List (String × ℚ)) (dist : List (String × ℚ)) (acc : List DState),
      (∀ bw ∈ nbrs, bw ∈ adjGetD adj node) →
      (∀ v ∈ hist, ∃ d, alookup v dist = some d ∧ d ≤ cost) →
      (∀ x ∈ acc, x ∈ (relax cost hist nbrs dist acc).2) ∧
      (∀ v d, alookup v dist = some d →
        ∃ d', alookup v (relax cost hist nbrs dist acc).1 = some d' ∧ d' ≤ d) ∧
      (∀ v d', alookup v (relax cost hist nbrs dist acc).1 = some d' →
        alookup v dist = some d' ∨
        (∃ w, (v, w) ∈ nbrs ∧ d' = cost + w ∧
          ∃ E ∈ (relax cost hist nbrs dist acc).2,
            E.node = v ∧ E.cost = d' ∧ E.history = hist ++ [v])) ∧
      (∀ bw ∈ nbrs, ∃ d', alookup bw.1 (relax cost hist nbrs dist acc).1 = some d' ∧
        d' ≤ cost + bw.2) ∧
      (∀ E ∈ (relax cost hist nbrs dist acc).2, E ∈ acc ∨
        (∃ w, (E.node, w) ∈ nbrs ∧ E.cost = cost + w ∧
          E.history = hist ++ [E.node] ∧ E.node ∉ hist)) ∧
      (distWeight adj src (relax cost hist nbrs dist acc).1 +
          (relax cost hist nbrs dist acc).2.length ≤
        distWeight adj src dist + acc.length) := by
  intro nbrs
  induction nbrs with
  | nil =>
    intro dist acc hsub hhist
    rw [relax]
    refine ⟨fun x hx => hx, fun v d h => ⟨d, h, le_refl d⟩,
      fun v d' h => Or.inl h, fun bw hbw => absurd hbw (List.not_mem_nil bw),
      fun E hE => Or.inl hE, le_refl _⟩
  | cons nw rest ih =>
    intro dist acc hsub hhist
    obtain ⟨nxt, w⟩ := nw
    have hw0 : 0 ≤ w :=
      adjNonneg_get hnn (hsub (nxt, w) (List.mem_cons_self _ _))
    have himprove : ∀ (himp : alookup nxt dist = none ∨
        ∃ d, alookup nxt dist = some d ∧ cost + w < d),
        relax cost hist ((nxt, w) :: rest) dist acc =
          relax cost hist rest (distUpdate nxt (cost + w) dist)
            (acc ++ [⟨cost + w, nxt, hist ++ [nxt]⟩]) := by
      intro himp
      rcases himp with hl | ⟨d, hl, hlt⟩ <;>
        · rw [relax]
          simp only [hl]
          simp [*]
    by_cases himp : alookup nxt dist = none ∨
        ∃ d, alookup nxt dist = some d ∧ cost + w < d
    · -- improving step: update the table and push an entry
      have hnotin : nxt ∉ hist := by
        intro hmem
        obtain ⟨dv, hdv, hdc⟩ := hhist nxt hmem
        rcases himp with hl | ⟨d, hl, hlt⟩
        · rw [hdv] at hl
          cases hl
        · rw [hdv] at hl
          injection hl with hl
          subst hl
          linarith
      have hwalk' : Walk adj src nxt (hist ++ [nxt]) (cost + w) :=
        walk_snoc hwalk (hsub (nxt, w) (List.mem_cons_self _ _))
      have hnodup' : (hist ++ [nxt]).Nodup := by
        rw [List.nodup_append]
        refine ⟨hnodup, List.nodup_singleton nxt, ?_⟩
        intro a ha hb
        rw [List.mem_singleton] at hb
        subst hb
        exact hnotin ha
      have hnxt_ns : nxt ∈ dijkstraNodes adj src := by
        rw [dijkstraNodes, List.mem_dedup]
        exact List.mem_cons_of_mem _
          (adj_mem_nodes (hsub (nxt, w) (List.mem_cons_self _ _)))
      have hcand_in : cost + w ∈ pathCostsTo adj src nxt :=
        pathCostsTo_complete hwalk' hnodup'
      have hdw : distWeight adj src (distUpdate nxt (cost + w) dist) <
          distWeight adj src dist :=
        distWeight_update_lt hnxt_ns hcand_in himp
      have hhist' : ∀ v ∈ hist, ∃ d,
          alookup v (distUpdate nxt (cost + w) dist) = some d ∧ d ≤ cost := by
        intro v hv
        obtain ⟨d, hd, hdc⟩ := hhist v hv
        have hvne : v ≠ nxt := fun h => hnotin (h ▸ hv)
        rw [alookup_distUpdate_ne nxt v (cost + w) hvne]
        exact ⟨d, hd, hdc⟩
      obtain ⟨k0, k1, k2, k3, k4, k5⟩ :=
        ih (distUpdate nxt (cost + w) dist)
          (acc ++ [⟨cost + w, nxt, hist ++ [nxt]⟩])
          (fun bw hbw => hsub bw (List.mem_cons_of_mem _ hbw)) hhist'
      rw [himprove himp]
      have hE₀ : (⟨cost + w, nxt, hist ++ [nxt]⟩ : DState) ∈
          (relax cost hist rest (distUpdate nxt (cost + w) dist)
            (acc ++ [⟨cost + w, nxt, hist ++ [nxt]⟩])).2 :=
        k0 _ (List.mem_append_right acc (List.mem_singleton_self _))
      refine ⟨?_, ?_, ?_, ?_, ?_, ?_⟩
      · intro x hx
        exact k0 x (List.mem_append_left _ hx)
      · intro v d hd
        by_cases hv : v = nxt
        · subst hv
          rcases himp with hl | ⟨d₂, hl, hlt⟩
          · rw [hd] at hl
            cases hl
          · rw [hd] at hl
            injection hl with hl
            subst hl
            obtain ⟨d', hd', hle'⟩ := k1 v (cost + w) (alookup_distUpdate_self v (cost + w) dist)
            exact ⟨d', hd', le_trans hle' (le_of_lt hlt)⟩
        · obtain ⟨d', hd', hle'⟩ := k1 v d (by
            rw [alookup_distUpdate_ne nxt v (cost + w) hv]
            exact hd)
          exact ⟨d', hd', hle'⟩
      · intro v d' hd'
        rcases k2 v d' hd' with h2 | ⟨w', hw', hcw', E, hE, hEn, hEc, hEh⟩
        · by_cases hv : v = nxt
          · subst hv
            rw [alookup_distUpdate_self] at h2
            injection h2 with h2
            refine Or.inr ⟨w, List.mem_cons_self _ _, h2.symm, ?_⟩
            refine ⟨⟨cost + w, v, hist ++ [v]⟩, hE₀, rfl, h2, rfl⟩
          · rw [alookup_distUpdate_ne nxt v (cost + w) hv] at h2
            exact Or.inl h2
        · exact Or.inr ⟨w', List.mem_cons_of_mem _ hw', hcw', E, hE, hEn, hEc, hEh⟩
      · intro bw hbw
        rcases List.mem_cons.mp hbw with hbw1 | hbw2
        · obtain ⟨d', hd', hle'⟩ :=
            k1 nxt (cost + w) (alookup_distUpdate_self nxt (cost + w) dist)
          rw [hbw1]
          exact ⟨d', hd', hle'⟩
        · exact k3 bw hbw2
      · intro E hE
        rcases k4 E hE with h4 | ⟨w', hw', hEc, hEh, hEn⟩
        · rcases List.mem_append.mp h4 with h5 | h5
          · exact Or.inl h5
          · rw [List.mem_singleton] at h5
            subst h5
            exact Or.inr ⟨w, List.mem_cons_self _ _, rfl, rfl, hnotin⟩
        · exact Or.inr ⟨w', List.mem_cons_of_mem _ hw', hEc, hEh, hEn⟩
      · have := k5
        rw [List.length_append, List.length_singleton] at this
        omega
    · -- no improvement: the neighbour keeps its recorded distance
      push_neg at himp
      obtain ⟨hne, hge⟩ := himp
      rcases hl : alookup nxt dist with _ | d
      · exact absurd hl hne
      have hdle : d ≤ cost + w := hge d hl
      have hred : relax cost hist ((nxt, w) :: rest) dist acc =
          relax cost hist rest dist acc := by
        rw [relax]
        simp only [hl]
        simp [not_lt.mpr hdle]
      obtain ⟨k0, k1, k2, k3, k4, k5⟩ := ih dist acc
        (fun bw hbw => hsub bw (List.mem_cons_of_mem _ hbw)) hhist
      rw [hred]
      refine ⟨k0, k1, ?_, ?_, ?_, k5⟩
      · intro v d' hd'
        rcases k2 v d' hd' with h2 | ⟨w', hw', hcw', E, hE, hEn, hEc, hEh⟩
        · exact Or.inl h2
        · exact Or.inr ⟨w', List.mem_cons_of_mem _ hw', hcw', E, hE, hEn, hEc, hEh⟩
      · intro bw hbw
        rcases List.mem_cons.mp hbw with hbw1 | hbw2
        · obtain ⟨d', hd', hle'⟩ := k1 nxt d hl
          rw [hbw1]
          exact ⟨d', hd', le_trans hle' hdle⟩
        · exact k3 bw hbw2
      · intro E hE
        rcases k4 E hE with h4 | ⟨w', hw', hEc, hEh, hEn⟩
        · exact Or.inl h4
        · exact Or.inr ⟨w', List.mem_cons_of_mem _ hw', hEc, hEh, hEn⟩

-- ── Invariant preservation ─────────────────────────────────────────────────

theorem dEps_pos : 0 < dEps := by
  norm_num [dEps]

theorem dinv_init (adj : AdjMap) (src dst : String) :
    DInv adj src dst [(src, 0)] [⟨0, src, [src]⟩] := by
  have hlook : ∀ v d, alookup v [(src, (0 : ℚ))] = some d → v = src ∧ d = 0 := by
    intro v d h
    rw [alookup] at h
    by_cases hv : src = v
    · rw [if_pos hv] at h
      injection h with h
      exact ⟨hv.symm, h.symm⟩
    · rw [if_neg hv] at h
      simp [alookup] at h
  refine ⟨?_, ?_, ?_, ?_, ?_, ?_, ?_⟩
  · intro e he
    rw [List.mem_singleton] at he
    subst he
    exact ⟨Walk.nil src, List.nodup_singleton src⟩
  · intro e he v hv
    rw [List.mem_singleton] at he
    subst he
    rw [List.mem_singleton] at hv
    subst hv
    refine ⟨0, ?_, le_refl 0⟩
    rw [alookup, if_pos rfl]
  · intro v d hd
    obtain ⟨hv, hd0⟩ := hlook v d hd
    subst hv
    subst hd0
    exact ⟨[v], Walk.nil v, List.nodup_singleton v⟩
  · intro v d hd
    obtain ⟨hv, _⟩ := hlook v d hd
    subst hv
    rw [dijkstraNodes, List.mem_dedup]
    exact List.mem_cons_self _ _
  · intro v d hd
    obtain ⟨hv, hd0⟩ := hlook v d hd
    subst hv
    subst hd0
    refine Or.inl ⟨⟨0, v, [v]⟩, List.mem_singleton_self _, rfl, rfl⟩
  · intro d hd
    obtain ⟨hv, hd0⟩ := hlook dst d hd
    subst hd0
    exact ⟨⟨0, src, [src]⟩, List.mem_singleton_self _, hv.symm, rfl⟩
  · rw [alookup, if_pos rfl]

theorem dinv_stale {adj : AdjMap} {src dst : String} {dist : List (String × ℚ)}
    {heap heap' : List DState} {e : DState}
    (hinv : DInv adj src dst dist heap) (hpop : popMin heap = some (e, heap'))
    (hnedst : e.node ≠ dst)
    (hstale : ∃ best, alookup e.node dist = some best ∧ best + dEps < e.cost) :
    DInv adj src dst dist heap' := by
  obtain ⟨hm, hperm, hmin⟩ := popMin_spec hpop
  have hsub : ∀ x ∈ heap', x ∈ heap := fun x hx =>
    hperm.mem_iff.mpr (List.mem_cons_of_mem _ hx)
  have hsplit : ∀ x ∈ heap, x = e ∨ x ∈ heap' := fun x hx =>
    List.mem_cons.mp (hperm.mem_iff.mp hx)
  obtain ⟨best, hbest, hbe⟩ := hstale
  refine ⟨?_, ?_, hinv.distWalk, hinv.distKeys, ?_, ?_, hinv.srcZero⟩
  · intro x hx
    exact hinv.entries x (hsub x hx)
  · intro x hx
    exact hinv.entryDist x (hsub x hx)
  · intro v d hd
    rcases hinv.distEntryOrExpanded v d hd with ⟨E, hE, hEn, hEc⟩ | hexp
    · have hEe : E ≠ e := by
        intro h
        subst h
        rw [hEn] at hbest
        rw [hd] at hbest
        injection hbest with hbest
        subst hbest
        rw [hEc] at hbe
        have := dEps_pos
        linarith
      rcases hsplit E hE with h1 | h1
      · exact absurd h1 hEe
      · exact Or.inl ⟨E, h1, hEn, hEc⟩
    · exact Or.inr hexp
  · intro d hd
    obtain ⟨E, hE, hEn, hEc⟩ := hinv.dstEntry d hd
    have hEe : E ≠ e := by
      intro h
      subst h
      exact hnedst hEn
    rcases hsplit E hE with h1 | h1
    · exact absurd h1 hEe
    · exact ⟨E, h1, hEn, hEc⟩

theorem dinv_process {adj : AdjMap} {src dst : String} {dist : List (String × ℚ)}
    {heap heap' : List DState} {e : DState} (hnn : AdjNonneg adj)
    (hinv : DInv adj src dst dist heap) (hpop : popMin heap = some (e, heap'))
    (hnedst : e.node ≠ dst) :
    DInv adj src dst (relax e.cost e.history (adjGetD adj e.node) dist []).1
      (heap' ++ (relax e.cost e.history (adjGetD adj e.node) dist []).2) := by
  obtain ⟨hm, hperm, hmin⟩ := popMin_spec hpop
  have hsub : ∀ x ∈ heap', x ∈ heap := fun x hx =>
    hperm.mem_iff.mpr (List.mem_cons_of_mem _ hx)
  have hsplit : ∀ x ∈ heap, x = e ∨ x ∈ heap' := fun x hx =>
    List.mem_cons.mp (hperm.mem_iff.mp hx)
  obtain ⟨hwalk_e, hnodup_e⟩ := hinv.entries e hm
  obtain ⟨k0, k1, k2, k3, k4, k5⟩ :=
    relax_spec hnn e.cost e.history e.node hwalk_e hnodup_e
      (adjGetD adj e.node) dist [] (fun bw hbw => hbw) (hinv.entryDist e hm)
  have hnew : ∀ E ∈ (relax e.cost e.history (adjGetD adj e.node) dist []).2,
      ∃ w, (E.node, w) ∈ adjGetD adj e.node ∧ E.cost = e.cost + w ∧
        E.history = e.history ++ [E.node] ∧ E.node ∉ e.history := by
    intro E hE
    rcases k4 E hE with h | h
    · exact absurd h (List.not_mem_nil E)
    · exact h
  have hnewWalk : ∀ E ∈ (relax e.cost e.history (adjGetD adj e.node) dist []).2,
      Walk adj src E.node E.history E.cost ∧ E.history.Nodup := by
    intro E hE
    obtain ⟨w, hmem, hc, hh, hni⟩ := hnew E hE
    constructor
    · rw [hh, hc]
      exact walk_snoc hwalk_e hmem
    · rw [hh, List.nodup_append]
      refine ⟨hnodup_e, List.nodup_singleton _, ?_⟩
      intro a ha hb
      rw [List.mem_singleton] at hb
      subst hb
      exact hni ha
  have hdw' : ∀ v d,
      alookup v (relax e.cost e.history (adjGetD adj e.node) dist []).1 = some d →
      ∃ p, Walk adj src v p d ∧ p.Nodup := by
    intro v d hd
    rcases k2 v d hd with h2 | ⟨w, hmem, hdc, E, hE, hEn, hEc, hEh⟩
    · exact hinv.distWalk v d h2
    · obtain ⟨w', hmem', hc', hh', hni'⟩ := hnew E hE
      refine ⟨e.history ++ [v], ?_, ?_⟩
      · rw [hdc]
        exact walk_snoc hwalk_e hmem
      · rw [List.nodup_append]
        refine ⟨hnodup_e, List.nodup_singleton _, ?_⟩
        intro a ha hb
        rw [List.mem_singleton] at hb
        subst hb
        rw [hEn] at hni'
        exact hni' ha
  refine ⟨?_, ?_, hdw', ?_, ?_, ?_, ?_⟩
  · intro x hx
    rcases List.mem_append.mp hx with h1 | h1
    · exact hinv.entries x (hsub x h1)
    · exact hnewWalk x h1
  · intro x hx v hv
    rcases List.mem_append.mp hx with h1 | h1
    · obtain ⟨d, hd, hdc⟩ := hinv.entryDist x (hsub x h1) v hv
      obtain ⟨d', hd', hle'⟩ := k1 v d hd
      exact ⟨d', hd', le_trans hle' hdc⟩
    · obtain ⟨w, hmem, hc, hh, hni⟩ := hnew x h1
      have hw0 : 0 ≤ w := adjNonneg_get hnn hmem
      rw [hh] at hv
      rcases List.mem_append.mp hv with h2 | h2
      · obtain ⟨d, hd, hdc⟩ := hinv.entryDist e hm v h2
        obtain ⟨d', hd', hle'⟩ := k1 v d hd
        refine ⟨d', hd', ?_⟩
        rw [hc]
        linarith
      · rw [List.mem_singleton] at h2
        subst h2
        obtain ⟨d', hd', hle'⟩ := k3 (x.node, w) hmem
        refine ⟨d', hd', ?_⟩
        rw [hc]
        exact hle'
  · intro v d hd
    rcases k2 v d hd with h2 | ⟨w, hmem, hdc, E, hE, hEn, hEc, hEh⟩
    · exact hinv.distKeys v d h2
    · rw [dijkstraNodes, List.mem_dedup]
      exact List.mem_cons_of_mem _ (adj_mem_nodes hmem)
  · intro v d hd
    rcases k2 v d hd with h2 | ⟨w, hmem, hdc, E, hE, hEn, hEc, hEh⟩
    · rcases hinv.distEntryOrExpanded v d h2 with ⟨W, hW, hWn, hWc⟩ | hexp
      · rcases hsplit W hW with h3 | h3
        · right
          intro bw hbw
          have hv : e.node = v := h3 ▸ hWn
          rw [← hv] at hbw
          obtain ⟨d', hd', hle'⟩ := k3 bw hbw
          refine ⟨d', hd', ?_⟩
          have hdc2 : e.cost = d := h3 ▸ hWc
          rw [← hdc2]
          exact hle'
        · exact Or.inl ⟨W, List.mem_append_left _ h3, hWn, hWc⟩
      · right
        intro bw hbw
        obtain ⟨d₂, hd₂, hle₂⟩ := hexp bw hbw
        obtain ⟨d₃, hd₃, hle₃⟩ := k1 bw.1 d₂ hd₂
        exact ⟨d₃, hd₃, le_trans hle₃ hle₂⟩
    · exact Or.inl ⟨E, List.mem_append_right _ hE, hEn, hEc⟩
  · intro d hd
    rcases k2 dst d hd with h2 | ⟨w, hmem, hdc, E, hE, hEn, hEc, hEh⟩
    · obtain ⟨W, hW, hWn, hWc⟩ := hinv.dstEntry d h2
      rcases hsplit W hW with h3 | h3
      · exact absurd (h3 ▸ hWn) hnedst
      · exact ⟨W, List.mem_append_left _ h3, hWn, hWc⟩
    · exact ⟨E, List.mem_append_right _ hE, hEn, hEc⟩
  · obtain ⟨d', hd', hle'⟩ := k1 src 0 hinv.srcZero
    obtain ⟨p, hwp, _⟩ := hdw' src d' hd'
    have h0 : 0 ≤ d' := walk_cost_nonneg hnn hwp
    have hz : d' = 0 := le_antisymm hle' h0
    rw [← hz]
    exact hd'

-- ── Chain argument and loop soundness ──────────────────────────────────────

theorem chainAux {adj : AdjMap} {src dst : String} {dist : List (String × ℚ)}
    {heap : List DState} (hnn : AdjNonneg adj)
    (hinv : DInv adj src dst dist heap) {cstar : ℚ}
    (hmin : ∀ p c, Walk adj src dst p c → cstar ≤ c) :
    ∀ {q : List String} {cq : ℚ} {v t : String}, Walk adj v t q cq → t = dst →
      ∀ d, alookup v dist = some d → d + cq = cstar →
      ∃ E ∈ heap, E.cost ≤ cstar := by
  intro q cq v t hw
  induction hw with
  | nil u =>
    intro ht d hd heq
    subst ht
    rw [add_zero] at heq
    obtain ⟨E, hE, hEn, hEc⟩ := hinv.dstEntry d hd
    exact ⟨E, hE, by rw [hEc, heq]⟩
  | cons a b t w p c hmem hsubw ih =>
    intro ht d hd heq
    subst ht
    rcases hinv.distEntryOrExpanded a d hd with ⟨E, hE, hEn, hEc⟩ | hexp
    · refine ⟨E, hE, ?_⟩
      rw [hEc]
      have hw0 : 0 ≤ w := adjNonneg_get hnn hmem
      have hc0 : 0 ≤ c := walk_cost_nonneg hnn hsubw
      linarith
    · obtain ⟨d_b, hdb, hdble⟩ := hexp (b, w) hmem
      have hle : d_b + c ≤ cstar := by linarith
      have hge : cstar ≤ d_b + c := by
        obtain ⟨pb, hwb, _⟩ := hinv.distWalk b d_b hdb
        exact hmin _ _ (walk_trans hwb hsubw)
      exact ih rfl d_b hdb (le_antisymm hle hge)

theorem dijkstraLoop_sound {adj : AdjMap} {src dst : String} (hnn : AdjNonneg adj) :
    ∀ (fuel : ℕ) (dist : List (String × ℚ)) (heap : List DState),
      DInv adj src dst dist heap →
      dMeasure adj src dist heap < fuel →
      (∃ r, dijkstraLoop adj src dst fuel dist heap = some (some r) ∧
        r.src_id = src ∧ r.dst_id = dst ∧ r.algorithm = "dijkstra+quicksort" ∧
        Walk adj src dst r.path r.total_weight ∧
        (∀ p c, Walk adj src dst p c → r.total_weight ≤ c)) ∨
      (dijkstraLoop adj src dst fuel dist heap = some none ∧
        ¬ Reachable adj src dst) := by
  intro fuel
  induction fuel with
  | zero =>
    intro dist heap _ hm
    omega
  | succ fuel ih =>
    intro dist heap hinv hmeas
    rcases hp : popMin heap with _ | pe
    · right
      constructor
      · rw [dijkstraLoop, hp]
      · rintro hr
        obtain ⟨cstar, ⟨P, hP⟩, hmins⟩ := cstar_spec hnn hr
        obtain ⟨E, hE, _⟩ :=
          chainAux hnn hinv hmins hP rfl 0 hinv.srcZero (by rw [zero_add])
        rw [popMin_eq_none.mp hp] at hE
        exact absurd hE (List.not_mem_nil E)
    · obtain ⟨e, heap'⟩ := pe
      obtain ⟨hm, hperm, hmin_pop⟩ := popMin_spec hp
      have hlen : heap.length = heap'.length + 1 := by
        have h := hperm.length_eq
        simp only [List.length_cons] at h
        omega
      by_cases hdst : e.node = dst
      · left
        refine ⟨⟨src, dst, e.history, e.cost, "dijkstra+quicksort"⟩, ?_, rfl, rfl,
          rfl, ?_, ?_⟩
        · rw [dijkstraLoop, hp]
          dsimp only
          rw [if_pos hdst]
        · have hwe := (hinv.entries e hm).1
          rw [hdst] at hwe
          exact hwe
        · intro p c hw
          have hwe := (hinv.entries e hm).1
          rw [hdst] at hwe
          have hr : Reachable adj src dst := ⟨e.history, e.cost, hwe⟩
          obtain ⟨cstar, ⟨P, hP⟩, hmins⟩ := cstar_spec hnn hr
          obtain ⟨E, hE, hEle⟩ :=
            chainAux hnn hinv hmins hP rfl 0 hinv.srcZero (by rw [zero_add])
          exact le_trans (le_trans (hmin_pop E hE) hEle) (hmins p c hw)
      · by_cases hst : ∃ best, alookup e.node dist = some best ∧
            best + dEps < e.cost
        · have hinv' := dinv_stale hinv hp hdst hst
          have hred : dijkstraLoop adj src dst (fuel + 1) dist heap =
              dijkstraLoop adj src dst fuel dist heap' := by
            rw [dijkstraLoop, hp]
            dsimp only
            rw [if_neg hdst]
            obtain ⟨best, hb, hlt⟩ := hst
            simp [hb, hlt]
          have hmeas' : dMeasure adj src dist heap' < fuel := by
            rw [dMeasure] at hmeas ⊢
            omega
          rw [hred]
          exact ih dist heap' hinv' hmeas'
        · have hinv' := dinv_process hnn hinv hp hdst
          have hred : dijkstraLoop adj src dst (fuel + 1) dist heap =
              dijkstraLoop adj src dst fuel
                (relax e.cost e.history (adjGetD adj e.node) dist []).1
                (heap' ++ (relax e.cost e.history (adjGetD adj e.node) dist []).2) := by
            rw [dijkstraLoop, hp]
            dsimp only
            rw [if_neg hdst]
            rcases hl : alookup e.node dist with _ | best
            · simp [hl]
            · have hnl : ¬ (best + dEps < e.cost) := fun h => hst ⟨best, hl, h⟩
              simp [hl, hnl]
          obtain ⟨hwe, hnde⟩ := hinv.entries e hm
          obtain ⟨k0, k1, k2, k3, k4, k5⟩ :=
            relax_spec hnn e.cost e.history e.node hwe hnde
              (adjGetD adj e.node) dist [] (fun bw hbw => hbw)
              (hinv.entryDist e hm)
          have hmeas' : dMeasure adj src
              (relax e.cost e.history (adjGetD adj e.node) dist []).1
              (heap' ++ (relax e.cost e.history (adjGetD adj e.node) dist []).2) <
              fuel := by
            rw [dMeasure] at hmeas ⊢
            rw [List.length_append]
            simp only [List.length_nil] at k5
            omega
          rw [hred]
          exact ih _ _ hinv' hmeas'

/-- Once the loop returns a definite answer, any larger fuel budget returns
the same answer (the fuel marker is monotone). -/
theorem dijkstraLoop_mono {adj : AdjMap} {src dst : String} :
    ∀ (fuel fuel' : ℕ) (dist : List (String × ℚ)) (heap : List DState)
      (x : Option PathResult), fuel ≤ fuel' →
      dijkstraLoop adj src dst fuel dist heap = some x →
      dijkstraLoop adj src dst fuel' dist heap = some x := by
  intro fuel
  induction fuel with
  | zero =>
    intro fuel' dist heap x _ h
    rw [dijkstraLoop] at h
    exact absurd h (by simp)
  | succ fuel ih =>
    intro fuel' dist heap x hle h
    cases fuel' with
    | zero => omega
    | succ f' =>
      have hle' : fuel ≤ f' := by omega
      rw [dijkstraLoop] at h ⊢
      rcases hp : popMin heap with _ | ⟨e, heap'⟩ <;> rw [hp] at h
      · exact h
      · dsimp only at h ⊢
        by_cases hdst : e.node = dst
        · rw [if_pos hdst] at h ⊢
          exact h
        · rw [if_neg hdst] at h ⊢
          rcases hl : alookup e.node dist with _ | best
          · simp only [hl] at h ⊢
            exact ih f' _ _ x hle' h
          · by_cases hlt : best + dEps < e.cost
            · simp [hl, hlt] at h ⊢
              exact ih f' _ _ x hle' h
            · simp [hl, hlt] at h ⊢
              exact ih f' _ _ x hle' h

/-- General optimality of `dijkstra` for reachable destinations (used both by
the C1 theorem and to anchor its concrete instance). -/
theorem dijkstra_reachable_opt :
    ∀ (adj : AdjMap) (src dst : String), AdjNonneg adj → Reachable adj src dst →
      ∃ r, dijkstra adj src dst = some (some r) ∧
        r.src_id = src ∧ r.dst_id = dst ∧
        Walk adj src dst r.path r.total_weight ∧
        ∀ p c, Walk adj src dst p c → r.total_weight ≤ c := by
  intro adj src dst hnn hr
  have hm : dMeasure adj src [(src, 0)] [⟨0, src, [src]⟩] < dijkstraFuel adj src := by
    rw [dijkstraFuel]
    omega
  rcases dijkstraLoop_sound hnn (dijkstraFuel adj src) [(src, 0)] [⟨0, src, [src]⟩]
      (dinv_init adj src dst) hm with ⟨r, hrun, h1, h2, _, h4, h5⟩ | ⟨_, hnr⟩
  · exact ⟨r, hrun, h1, h2, h4, h5⟩
  · exact absurd hr hnr

-- ── C1: search optimality ──────────────────────────────────────────────────

/-- C1: for every adjacency index with non-negative weights and every
reachable destination, `dijkstra` returns a result whose `total_weight` is the
minimum walk cost from `src` to `dst` and whose `path` is a walk realizing
that cost; in particular, on the graph `A-B (1), B-C (2), A-C (10)` the search
`A → C` returns path `[A, B, C]` with total weight `3`, not the direct edge. -/
theorem dijkstra_optimal :
    (∀ (adj : AdjMap) (src dst : String), AdjNonneg adj → Reachable adj src dst →
      ∃ r, dijkstra adj src dst = some (some r) ∧
        r.src_id = src ∧ r.dst_id = dst ∧
        Walk adj src dst r.path r.total_weight ∧
        ∀ p c, Walk adj src dst p c → r.total_weight ≤ c) ∧
    dijkstra (build_adjacency (quicksort_edges
        [⟨"e1", "A", "B", 1, "sim"⟩, ⟨"e2", "B", "C", 2, "sim"⟩,
         ⟨"e3", "A", "C", 10, "sim"⟩])) "A" "C" =
      some (some ⟨"A", "C", ["A", "B", "C"], 3, "dijkstra+quicksort"⟩) := by
  refine ⟨dijkstra_reachable_opt, ?_⟩
  have hadj : build_adjacency (quicksort_edges
      [⟨"e1", "A", "B", 1, "sim"⟩, ⟨"e2", "B", "C", 2, "sim"⟩,
       ⟨"e3", "A", "C", 10, "sim"⟩]) =
      [("A", [("B", 1), ("C", 10)]), ("B", [("A", 1), ("C", 2)]),
       ("C", [("B", 2), ("A", 10)])] := by decide
  have h3 : dijkstraLoop
      [("A", [("B", 1), ("C", 10)]), ("B", [("A", 1), ("C", 2)]),
       ("C", [("B", 2), ("A", 10)])] "A" "C" 3 [("A", 0)] [⟨0, "A", ["A"]⟩] =
      some (some ⟨"A", "C", ["A", "B", "C"], 3, "dijkstra+quicksort"⟩) := by
    simp [dijkstraLoop, popMin, relax, adjGetD, alookup, distUpdate, dEps,
      decide_eq_true_eq]
    norm_num [popMin]
  have hreach : Reachable (build_adjacency (quicksort_edges
      [⟨"e1", "A", "B", 1, "sim"⟩, ⟨"e2", "B", "C", 2, "sim"⟩,
       ⟨"e3", "A", "C", 10, "sim"⟩])) "A" "C" :=
    ⟨["A", "B", "C"], 1 + (2 + 0),
      Walk.cons "A" "B" "C" 1 ["B", "C"] (2 + 0) (by decide)
        (Walk.cons "B" "C" "C" 2 ["C"] 0 (by decide) (Walk.nil "C"))⟩
  obtain ⟨r, hrun, -, -, -, -⟩ := dijkstra_reachable_opt _ "A" "C" (by decide) hreach
  rw [dijkstra, hadj] at hrun
  rw [dijkstra, hadj]
  rcases le_total 3 (dijkstraFuel
      [("A", [("B", 1), ("C", 10)]), ("B", [("A", 1), ("C", 2)]),
       ("C", [("B", 2), ("A", 10)])] "A") with hle | hle
  · exact dijkstraLoop_mono 3 _ _ _ _ hle h3
  · have h2 := dijkstraLoop_mono _ 3 _ _ _ hle hrun
    rw [h3] at h2
    rw [hrun]
    exact h2.symm

/-- Witness for C1 on the unit-test graph. -/
theorem dijkstra_optimal_witness :
    AdjNonneg (build_adjacency (quicksort_edges
      [⟨"e1", "A", "B", 1, "sim"⟩, ⟨"e2", "B", "C", 2, "sim"⟩,
       ⟨"e3", "A", "C", 10, "sim"⟩])) ∧
    Reachable (build_adjacency (quicksort_edges
      [⟨"e1", "A", "B", 1, "sim"⟩, ⟨"e2", "B", "C", 2, "sim"⟩,
       ⟨"e3", "A", "C", 10, "sim"⟩])) "A" "C" ∧
    ∃ r, dijkstra (build_adjacency (quicksort_edges
        [⟨"e1", "A", "B", 1, "sim"⟩, ⟨"e2", "B", "C", 2, "sim"⟩,
         ⟨"e3", "A", "C", 10, "sim"⟩])) "A" "C" = some (some r) ∧
      r.src_id = "A" ∧ r.dst_id = "C" ∧
      Walk (build_adjacency (quicksort_edges
        [⟨"e1", "A", "B", 1, "sim"⟩, ⟨"e2", "B", "C", 2, "sim"⟩,
         ⟨"e3", "A", "C", 10, "sim"⟩])) "A" "C" r.path r.total_weight ∧
      ∀ p c, Walk (build_adjacency (quicksort_edges
        [⟨"e1", "A", "B", 1, "sim"⟩, ⟨"e2", "B", "C", 2, "sim"⟩,
         ⟨"e3", "A", "C", 10, "sim"⟩])) "A" "C" p c → r.total_weight ≤ c := by
  have hreach : Reachable (build_adjacency (quicksort_edges
      [⟨"e1", "A", "B", 1, "sim"⟩, ⟨"e2", "B", "C", 2, "sim"⟩,
       ⟨"e3", "A", "C", 10, "sim"⟩])) "A" "C" :=
    ⟨["A", "B", "C"], 1 + (2 + 0),
      Walk.cons "A" "B" "C" 1 ["B", "C"] (2 + 0) (by decide)
        (Walk.cons "B" "C" "C" 2 ["C"] 0 (by decide) (Walk.nil "C"))⟩
  exact ⟨by decide, hreach,
    dijkstra_optimal.1 (build_adjacency (quicksort_edges
      [⟨"e1", "A", "B", 1, "sim"⟩, ⟨"e2", "B", "C", 2, "sim"⟩,
       ⟨"e3", "A", "C", 10, "sim"⟩])) "A" "C" (by decide) hreach⟩

-- ── C8: no-path behaviour and absence of persistence ───────────────────────

/-- C8: when the destination is unreachable, `dijkstra` returns the explicit
absence value (Rust `None`, not an error), and `compute_and_persist` then
returns `Ok(None)` with the store untouched: no `path_results` row is written
and no identifier is minted. -/
theorem dijkstra_no_path_no_persist (db : Db) (src_id dst_id : String)
    (edge_type run_id : Option String) (shortUuid : String)
    (hnn : AdjNonneg (build_adjacency (quicksort_edges (load_edges db edge_type))))
    (hnr : ¬ Reachable (build_adjacency (quicksort_edges (load_edges db edge_type)))
      src_id dst_id) :
    dijkstra (build_adjacency (quicksort_edges (load_edges db edge_type)))
        src_id dst_id = some none ∧
    compute_and_persist db src_id dst_id edge_type run_id shortUuid =
      (db, some none) := by
  have hd : dijkstra (build_adjacency (quicksort_edges (load_edges db edge_type)))
      src_id dst_id = some none := by
    rw [dijkstra]
    have hm : dMeasure (build_adjacency (quicksort_edges (load_edges db edge_type)))
        src_id [(src_id, 0)] [⟨0, src_id, [src_id]⟩] <
        dijkstraFuel (build_adjacency (quicksort_edges (load_edges db edge_type)))
          src_id := by
      rw [dijkstraFuel]
      omega
    rcases dijkstraLoop_sound hnn _ [(src_id, 0)] [⟨0, src_id, [src_id]⟩]
        (dinv_init _ src_id dst_id) hm with ⟨r, _, _, _, _, h4, _⟩ | ⟨heq, _⟩
    · exact absurd ⟨r.path, r.total_weight, h4⟩ hnr
    · exact heq
  refine ⟨hd, ?_⟩
  rw [compute_and_persist]
  simp only [hd]

/-- Witness for C8 on an empty store (no edges at all, so nothing reachable). -/
theorem dijkstra_no_path_no_persist_witness :
    (AdjNonneg (build_adjacency (quicksort_edges
        (load_edges ⟨[], [], []⟩ none))) ∧
      ¬ Reachable (build_adjacency (quicksort_edges
        (load_edges ⟨[], [], []⟩ none))) "A" "Z") ∧
    dijkstra (build_adjacency (quicksort_edges (load_edges ⟨[], [], []⟩ none)))
        "A" "Z" = some none ∧
    compute_and_persist ⟨[], [], []⟩ "A" "Z" none none "tok" =
      (⟨[], [], []⟩, some none) := by
  have hnr : ¬ Reachable (build_adjacency (quicksort_edges
      (load_edges ⟨[], [], []⟩ none))) "A" "Z" := by
    have key : ∀ (s t : String) (p : List String) (c : ℚ),
        Walk [] s t p c → s = t := by
      intro s t p c hw
      induction hw with
      | nil v => rfl
      | cons a b t w p c hmem hsub ih => simp [adjGetD, alookup] at hmem
    rintro ⟨p, c, hw⟩
    rw [show build_adjacency (quicksort_edges (load_edges ⟨[], [], []⟩ none)) = []
      from by decide] at hw
    exact absurd (key "A" "Z" p c hw) (by decide)
  exact ⟨⟨by decide, hnr⟩,
    dijkstra_no_path_no_persist ⟨[], [], []⟩ "A" "Z" none none "tok" (by decide) hnr⟩
